import Mathlib

/-!
Verification of the query-graph-to-expression translation pass
(`query-compiler/src/translate.rs`).

The translator consumes a mutable dependency graph of pending database
operations and produces a nested expression tree.  The Rust code is embedded
shallowly below:

* the expression IR, the graph, nodes, edges and dependency descriptors are
  concrete Lean structures;
* the mutable `QueryGraph` is threaded explicitly through every function;
* Rust `Result`/`?` becomes `Except` with explicit `match`es;
* Rust panics (`unimplemented!`, `todo!`, `expect`) become the distinguished
  `TranslateError.Panic` error so that aborts remain observable;
* the unbounded recursion of `NodeTranslator::translate` is made structural
  with an explicit fuel parameter (`TranslateError.OutOfFuel` signals
  exhaustion; the Rust original diverges only on cyclic graphs, which are an
  input precondition violation);
* the graph records a ghost `trace` of pluck events, used solely to state
  the single-consumption invariant; no translated code reads it.
-/

/-- A node identifier: the stable, string-valued, graph-unique id produced by
`NodeRef::id()` and used as a binding name. -/
abbrev NodeRef := String

/-- An edge reference, identified by its position in the graph's edge list. -/
abbrev EdgeRef := Nat

/-- Opaque payload of the leaf expression produced by the lowering service.
Modelled from the spec: the produced leaf is opaque to the core
("the core does not inspect what it returns beyond treating it as an IR
leaf"). -/
structure DbQuery where
  tag : Nat
deriving DecidableEq, Repr

/-- The expression IR (`super::expression`), with the constructors used by
`translate.rs`: `Seq`, `Let`, `Get`, `GetFirstNonEmpty`, `MapField` and the
opaque lowered-query leaf.  A binding is a `(name, expression)` pair. -/
inductive Expression where
  | Seq (exprs : List Expression)
  | Let (bindings : List (String × Expression)) (expr : Expression)
  | Get (name : String)
  | GetFirstNonEmpty (names : List String)
  | MapField (field : String) (records : Expression)
  | Query (db : DbQuery)

/-- `Binding { name, expr }` from the expression IR. -/
abbrev Binding := String × Expression

/-- `Binding::new`. -/
def Binding.new (name : String) (expr : Expression) : Binding := (name, expr)

/-- Projection: a binding's name. -/
def Binding.name (b : Binding) : String := b.1

/-- Projection: a binding's bound expression. -/
def Binding.expr (b : Binding) : Expression := b.2

/-- A scalar field of a model; `db_name` is its database column name. -/
structure ScalarField where
  db_name : String
deriving DecidableEq, Repr

/-- A field selection carried by a projected-data dependency. -/
abbrev FieldSelection := List ScalarField

/-- `FieldSelection::selections()`: iterate the selected fields. -/
def FieldSelection.selections (s : FieldSelection) : List ScalarField := s

/-- Placeholder type marker; only `Any` is used by this module. -/
inductive PlaceholderType where
  | Any
deriving DecidableEq, Repr

/-- The Prisma value variant built by this module: a deferred placeholder
tagged with the name of the node whose result it stands for. -/
inductive PrismaValue where
  | Placeholder (name : String) (ty : PlaceholderType)
deriving DecidableEq, Repr

/-- `SelectionResult::new(pairs)`: fields paired with values. -/
structure SelectionResult where
  pairs : List (ScalarField × PrismaValue)
deriving DecidableEq, Repr

/-- `SelectionResult::new`. -/
def SelectionResult.new (pairs : List (ScalarField × PrismaValue)) : SelectionResult :=
  ⟨pairs⟩

/-- A finalized query operation; opaque to the translator, which only hands
it to the lowering service. -/
structure Query where
  tag : Nat
deriving DecidableEq, Repr

/-- Node content (`query_core::Node`): a pending query operation, the empty
marker, or another (flow) variant on which `translate` is unimplemented. -/
inductive Node where
  | Query (q : Query)
  | Empty
  | Flow
deriving DecidableEq, Repr

/-- `TranslateError` from `translate.rs`.  `Panic` additionally models Rust
panics (`unimplemented!`, `todo!`, failed `expect`) so that aborting control
flow stays observable; `OutOfFuel` signals exhaustion of the embedding's fuel
(the Rust recursion is unbounded). -/
inductive TranslateError where
  | NodeContentEmpty (id : String)
  | QueryBuildFailure (msg : String)
  | GraphBuildError (msg : String)
  | Panic (msg : String)
  | OutOfFuel
deriving DecidableEq, Repr

/-- `TranslateResult<T>`. -/
abbrev TranslateResult (α : Type) := Except TranslateError α

/-- An edge's dependency descriptor (`QueryGraphDependency`).  The
projected-data variant carries a field selection and the rewrite function
applied to the target's pending operation; the rewrite function's failures
are query-graph-builder errors. -/
inductive QueryGraphDependency where
  | ExecutionOrder
  | ProjectedDataDependency (selection : FieldSelection)
      (f : Node → List SelectionResult → Except String Node)
  | DataDependency
  | Then
  | Else

/-- Ghost event recording one pluck: a node's content, or an edge's
dependency descriptor together with the node whose translation consumed
it. -/
inductive PluckEvent where
  | node (id : NodeRef)
  | edge (idx : EdgeRef) (byNode : NodeRef)
deriving DecidableEq, Repr

/-- One edge of the query graph: endpoints plus the consumable dependency
descriptor slot (`none` once plucked). -/
structure EdgeSlot where
  source : NodeRef
  target : NodeRef
  content : Option QueryGraphDependency

/-- The empty edge slot, used as the out-of-range default. -/
def EdgeSlot.empty : EdgeSlot := ⟨"", "", none⟩

/-- The query graph, modelled from the spec's graph contract: an arena of
node slots addressed by stable identifiers (`none` = content already
plucked), an indexed edge list, the designated result nodes, the visited
markers, and the ghost pluck trace. -/
structure QueryGraph where
  contents : List (NodeRef × Option Node)
  edges : List EdgeSlot
  results : List NodeRef
  visited : List NodeRef
  trace : List PluckEvent

namespace QueryGraph

/-- Modelled from the spec: fetch a node's current content by identifier, or
signal absence. -/
def node_content (g : QueryGraph) (node : NodeRef) : Option Node :=
  match g.contents.find? (fun p => p.1 == node) with
  | some p => p.2
  | none => none

/-- Modelled from the spec: mark a node visited.  The marker is written by
`translate_query` but never read in this module. -/
def mark_visited (g : QueryGraph) (node : NodeRef) : QueryGraph :=
  { g with visited := g.visited ++ [node] }

/-- Modelled from the spec: test whether a node is a designated result
node. -/
def is_result_node (g : QueryGraph) (node : NodeRef) : Bool :=
  g.results.contains node

/-- Modelled from the spec: enumerate all result nodes. -/
def result_nodes (g : QueryGraph) : List NodeRef := g.results

/-- Modelled from the spec: pluck (take and clear) a node's content.  Taking
from an empty slot is a programming error (panic). -/
def pluck_node (g : QueryGraph) (node : NodeRef) : TranslateResult (Node × QueryGraph) :=
  match g.node_content node with
  | some n =>
      .ok (n, { g with
        contents := g.contents.map (fun p => if p.1 == node then (p.1, none) else p),
        trace := g.trace ++ [.node node] })
  | none => .error (.Panic "node content already taken")

/-- Peek at an edge's dependency descriptor without consuming it. -/
def edge_content (g : QueryGraph) (e : EdgeRef) : Option QueryGraphDependency :=
  (g.edges.getD e EdgeSlot.empty).content

/-- Modelled from the spec: resolve an edge's source node. -/
def edge_source (g : QueryGraph) (e : EdgeRef) : NodeRef :=
  (g.edges.getD e EdgeSlot.empty).source

/-- The node an edge points to. -/
def edge_target (g : QueryGraph) (e : EdgeRef) : NodeRef :=
  (g.edges.getD e EdgeSlot.empty).target

/-- Modelled from the spec: pluck (take and clear) an edge's dependency
descriptor.  Taking an already-plucked descriptor is a programming error.
`byNode` is a ghost argument recording which node's translation consumed the
edge; it only feeds the event trace. -/
def pluck_edge (g : QueryGraph) (e : EdgeRef) (byNode : NodeRef) :
    TranslateResult (QueryGraphDependency × QueryGraph) :=
  match g.edge_content e with
  | some dep =>
      .ok (dep, { g with
        edges := g.edges.set e { g.edges.getD e EdgeSlot.empty with content := none },
        trace := g.trace ++ [.edge e byNode] })
  | none => .error (.Panic "edge content already taken")

/-- Modelled from the spec: enumerate the edges incoming to a node, in the
graph's stable (index) order. -/
def incoming_edges (g : QueryGraph) (node : NodeRef) : List EdgeRef :=
  (List.range g.edges.length).filter (fun i => g.edge_target i == node)

/-- Modelled from the spec: enumerate a node's direct (edge, child) pairs in
the graph's stable (index) order. -/
def direct_child_pairs (g : QueryGraph) (node : NodeRef) : List (EdgeRef × NodeRef) :=
  (List.range g.edges.length).filterMap
    (fun i => if g.edge_source i == node then some (i, g.edge_target i) else none)

/-- Modelled from the spec: the root nodes are the nodes with no incoming
dependency edge, in node-slot order. -/
def root_nodes (g : QueryGraph) : List NodeRef :=
  (g.contents.map Prod.fst).filter (fun id => g.edges.all (fun e => e.target != id))

/-- One breadth step of reachability: add every direct successor of the
accumulated set that is not yet in it. -/
def reach_step (g : QueryGraph) (acc : List NodeRef) : List NodeRef :=
  acc ++ g.edges.filterMap
    (fun e => if acc.contains e.source && !(acc.contains e.target) then some e.target else none)

/-- Iterated reachability steps. -/
def reach_iter (g : QueryGraph) : Nat → List NodeRef → List NodeRef
  | 0, acc => acc
  | n + 1, acc => g.reach_iter n (g.reach_step acc)

/-- The nodes reachable from `node` (including `node` itself); iterating one
step per edge reaches a fixpoint on any graph. -/
def reachable (g : QueryGraph) (node : NodeRef) : List NodeRef :=
  g.reach_iter g.edges.length [node]

/-- Modelled from the spec: test whether a node's reachable subgraph contains
a result node. -/
def subgraph_contains_result (g : QueryGraph) (node : NodeRef) : Bool :=
  (g.reachable node).any (fun n => g.results.contains n)

end QueryGraph

/-- The lowering service: `lower(finalized operation) -> leaf payload or
failure`.  Modelled from the spec; the `QueryBuilder` trait and `mod query`
are outside this source slice. -/
abbrev QueryBuilder := Query → Except String DbQuery

/-- Modelled from the spec: `query::translate_query` lowers one finalized
operation through the builder into an opaque leaf expression, wrapping any
builder failure as a build failure. -/
def query.translate_query (q : Query) (builder : QueryBuilder) : TranslateResult Expression :=
  match builder q with
  | .ok db => .ok (.Query db)
  | .error msg => .error (.QueryBuildFailure msg)

/-- The type of the recursive entry `NodeTranslator::translate`, abstracted
so that each method can be defined before the fuelled recursion is tied. -/
abbrev Rec := QueryGraph → NodeRef → List EdgeRef → TranslateResult (Expression × QueryGraph)

namespace NodeTranslator

/-- The `for edge in self.parent_edges` loop of `translate_query`: pluck each
incoming edge in order and apply its dependency to the pending operation.
An ordering-only dependency leaves the operation unchanged; a projected-data
dependency rewrites it through the edge's function applied to the
placeholder-bearing field set; the remaining variants are unimplemented
(panic). -/
def apply_parent_edges : QueryGraph → NodeRef → Node → List EdgeRef → TranslateResult (Node × QueryGraph)
  | graph, _, op, [] => .ok (op, graph)
  | graph, node, op, edge :: rest =>
    match graph.pluck_edge edge node with
    | .error e => .error e
    | .ok (.ExecutionOrder, graph) => apply_parent_edges graph node op rest
    | .ok (.ProjectedDataDependency selection f, graph) =>
      let fields := selection.selections.map
        (fun field => (field, PrismaValue.Placeholder (graph.edge_source edge) .Any))
      match f op [SelectionResult.new fields] with
      | .ok op => apply_parent_edges graph node op rest
      | .error msg => .error (.GraphBuildError msg)
    | .ok (.DataDependency, _) => .error (.Panic "todo: data dependency")
    | .ok (.Then, _) => .error (.Panic "todo: then")
    | .ok (.Else, _) => .error (.Panic "todo: else")

/-- `process_child_with_dependency`: translate one (edge, child) pair,
pre-passing a single-field projected-data dependency into a `MapField`
rebinding of the edge's source name around the recursed expression. -/
def process_child_with_dependency (rec : Rec) (graph : QueryGraph) (edge : EdgeRef)
    (node : NodeRef) : TranslateResult (Expression × QueryGraph) :=
  let fieldR : TranslateResult (Option String) :=
    match graph.edge_content edge with
    | some (.ProjectedDataDependency selection _) =>
      match selection.selections with
      | [first] => .ok (some first.db_name)
      | _ => .error (.Panic "todo: MapField with multiple fields")
    | _ => .ok none
  match fieldR with
  | .error e => .error e
  | .ok field =>
    let edges := graph.incoming_edges node
    let source := graph.edge_source edge
    match rec graph node edges with
    | .error e => .error e
    | .ok (expr, graph) =>
      match field with
      | some field =>
        .ok (.Let [Binding.new source (.MapField field (.Get source))] expr, graph)
      | none => .ok (expr, graph)

/-- The binding-collection loop of `fold_result_scopes`: translate each
result (edge, child) pair and bind it under the child node's identifier,
preserving order. -/
def collect_result_bindings (rec : Rec) : QueryGraph → List (EdgeRef × NodeRef) →
    TranslateResult (List Binding × QueryGraph)
  | graph, [] => .ok ([], graph)
  | graph, (edge, node) :: rest =>
    match process_child_with_dependency rec graph edge node with
    | .error e => .error e
    | .ok (expr, graph) =>
      match collect_result_bindings rec graph rest with
      | .error e => .error e
      | .ok (bs, graph) => .ok (Binding.new node expr :: bs, graph)

/-- `fold_result_scopes`: bind every result subgraph, then either overwrite
sequentially (`Get` of the last binding, when the graph has exactly one
result node) or select the first non-empty binding. -/
def fold_result_scopes (rec : Rec) (graph : QueryGraph)
    (result_subgraphs : List (EdgeRef × NodeRef)) : TranslateResult (Expression × QueryGraph) :=
  match collect_result_bindings rec graph result_subgraphs with
  | .error e => .error e
  | .ok (bindings, graph) =>
    let result_binding_names := bindings.map Binding.name
    if graph.result_nodes.length == 1 then
      match result_binding_names.getLast? with
      | some last => .ok (.Let bindings (.Get last), graph)
      | none => .error (.Panic "no binding for result node")
    else
      .ok (.Let bindings (.GetFirstNonEmpty result_binding_names), graph)

/-- The positions of the result-returning children among the direct child
pairs (`.iter().enumerate().filter_map(..)`), in increasing index order. -/
def result_positions (g : QueryGraph) (child_pairs : List (EdgeRef × NodeRef)) : List Nat :=
  child_pairs.enum.filterMap
    (fun p => if g.subgraph_contains_result p.2.2 then some p.1 else none)

/-- The `result_positions.into_iter().map(|pos| child_pairs.remove(pos))`
loop: remove the listed indices one after another, returning the removed
elements in removal order together with the remaining list. -/
def remove_many {α : Type} : List α → List Nat → (List α × List α)
  | l, [] => ([], l)
  | l, i :: is =>
    ((l[i]?).toList ++ (remove_many (l.eraseIdx i) is).1,
     (remove_many (l.eraseIdx i) is).2)

/-- The partition phase of `process_children`: sort the result positions
(`sort_unstable`), reverse them so that removal starts from the highest
index, and split the child pairs into the removed result subgraphs and the
remaining effect children. -/
def partition_child_pairs (g : QueryGraph) (child_pairs : List (EdgeRef × NodeRef)) :
    List (EdgeRef × NodeRef) × List (EdgeRef × NodeRef) :=
  let positions := (result_positions g child_pairs).insertionSort (· ≤ ·)
  remove_many child_pairs positions.reverse

/-- The effect-children loop of `process_children`: translate each remaining
(edge, child) pair in order. -/
def process_child_list (rec : Rec) : QueryGraph → List (EdgeRef × NodeRef) →
    TranslateResult (List Expression × QueryGraph)
  | graph, [] => .ok ([], graph)
  | graph, (edge, node) :: rest =>
    match process_child_with_dependency rec graph edge node with
    | .error e => .error e
    | .ok (expr, graph) =>
      match process_child_list rec graph rest with
      | .error e => .error e
      | .ok (exprs, graph) => .ok (expr :: exprs, graph)

/-- `process_children`: split the direct children into effect children and
result subgraphs, translate the effect children in order, and append the
folded result expression if any result subgraph exists. -/
def process_children (rec : Rec) (graph : QueryGraph) (node : NodeRef) :
    TranslateResult (List Expression × QueryGraph) :=
  let child_pairs := graph.direct_child_pairs node
  let parts := partition_child_pairs graph child_pairs
  match process_child_list rec graph parts.2 with
  | .error e => .error e
  | .ok (expressions, graph) =>
    if parts.1.isEmpty then .ok (expressions, graph)
    else
      match fold_result_scopes rec graph parts.1 with
      | .error e => .error e
      | .ok (result_exp, graph) => .ok (expressions ++ [result_exp], graph)

/-- `translate_query`: mark the node visited, recurse into children unless
the node is itself a result node, pluck the node, apply the incoming edges
to the pending operation, lower the finalized operation, and wrap the
children (if any) under a binding of the node's identifier. -/
def translate_query (rec : Rec) (builder : QueryBuilder) (graph : QueryGraph)
    (node : NodeRef) (parent_edges : List EdgeRef) : TranslateResult (Expression × QueryGraph) :=
  let graph := graph.mark_visited node
  match (if !(graph.is_result_node node) then process_children rec graph node
         else .ok ([], graph)) with
  | .error e => .error e
  | .ok (children, graph) =>
    match graph.pluck_node node with
    | .error e => .error e
    | .ok (op, graph) =>
      match apply_parent_edges graph node op parent_edges with
      | .error e => .error e
      | .ok (op, graph) =>
        match op with
        | .Query q =>
          match query.translate_query q builder with
          | .error e => .error e
          | .ok expr =>
            if children.isEmpty then .ok (expr, graph)
            else .ok (.Let [Binding.new node expr] (.Seq children), graph)
        | _ => .error (.Panic "current node must be query")

/-- `NodeTranslator::translate`: dispatch on the node's content.  An absent
content is the distinct empty-node error; a pending operation runs the
operation path; the empty marker yields an empty `Seq`; other variants are
unimplemented.  `fuel` bounds the recursion depth of the embedding. -/
def translate (builder : QueryBuilder) : Nat → QueryGraph → NodeRef → List EdgeRef →
    TranslateResult (Expression × QueryGraph)
  | 0, _, _, _ => .error .OutOfFuel
  | fuel + 1, graph, node, parent_edges =>
    match graph.node_content node with
    | none => .error (.NodeContentEmpty node)
    | some (.Query _) => translate_query (translate builder fuel) builder graph node parent_edges
    | some .Empty => .ok (.Seq [], graph)
    | some .Flow => .error (.Panic "unimplemented node variant")

end NodeTranslator

namespace Translate

/-- The root-iteration loop of the top-level `translate`: translate each root
with an empty incoming-edge set, sequentially threading the graph and
aborting on the first failure. -/
def translate_roots (builder : QueryBuilder) (fuel : Nat) : QueryGraph → List NodeRef →
    TranslateResult (List Expression × QueryGraph)
  | graph, [] => .ok ([], graph)
  | graph, node :: rest =>
    match NodeTranslator.translate builder fuel graph node [] with
    | .error e => .error e
    | .ok (expr, graph) =>
      match translate_roots builder fuel graph rest with
      | .error e => .error e
      | .ok (exprs, graph) => .ok (expr :: exprs, graph)

/-- The top-level `translate`, also returning the final graph state so that
consumption invariants can be stated. -/
def translate_graph (builder : QueryBuilder) (fuel : Nat) (graph : QueryGraph) :
    TranslateResult (Expression × QueryGraph) :=
  match translate_roots builder fuel graph graph.root_nodes with
  | .error e => .error e
  | .ok (exprs, graph) => .ok (.Seq exprs, graph)

/-- `translate(graph, builder)`: wrap the root translations in a `Seq`,
preserving root order. -/
def translate (builder : QueryBuilder) (fuel : Nat) (graph : QueryGraph) :
    TranslateResult Expression :=
  (translate_graph builder fuel graph).map Prod.fst

end Translate

/-! ### Derived forms of the graph operations, used in statements -/

/-- The graph produced by the successful branch of `pluck_edge`: the edge's
descriptor slot cleared and the ghost pluck event appended. -/
def QueryGraph.with_edge_plucked (g : QueryGraph) (e : EdgeRef) (byNode : NodeRef) : QueryGraph :=
  { g with
    edges := g.edges.set e { g.edges.getD e EdgeSlot.empty with content := none },
    trace := g.trace ++ [.edge e byNode] }

/-- The graph produced by the successful branch of `pluck_node`: the node's
content slot cleared and the ghost pluck event appended. -/
def QueryGraph.with_node_plucked (g : QueryGraph) (node : NodeRef) : QueryGraph :=
  { g with
    contents := g.contents.map (fun p => if p.1 == node then (p.1, none) else p),
    trace := g.trace ++ [.node node] }

theorem QueryGraph.pluck_edge_eq_of_content {g : QueryGraph} {e : EdgeRef}
    {dep : QueryGraphDependency} (byNode : NodeRef) (h : g.edge_content e = some dep) :
    g.pluck_edge e byNode = .ok (dep, g.with_edge_plucked e byNode) := by
  simp [pluck_edge, h, with_edge_plucked]

theorem QueryGraph.pluck_node_eq_of_content {g : QueryGraph} {node : NodeRef}
    {n : Node} (h : g.node_content node = some n) :
    g.pluck_node node = .ok (n, g.with_node_plucked node) := by
  simp [pluck_node, h, with_node_plucked]

/-! ### Concrete graphs and builder used by witnesses and counterexamples -/

/-- A lowering service that tags the leaf with the operation's tag. -/
def builder0 : QueryBuilder := fun q => .ok ⟨q.tag⟩

/-- The identity rewrite function for projected-data dependencies. -/
def rewriteId : Node → List SelectionResult → Except String Node := fun n _ => .ok n

/-- A root with two result children `A` and `B` (two distinct overall result
nodes). -/
def gTwoResults : QueryGraph :=
  { contents := [("root", some (.Query ⟨0⟩)), ("A", some (.Query ⟨1⟩)), ("B", some (.Query ⟨2⟩))],
    edges := [⟨"root", "A", some .ExecutionOrder⟩, ⟨"root", "B", some .ExecutionOrder⟩],
    results := ["A", "B"],
    visited := [], trace := [] }

/-- A result node `A` with an outgoing edge to `B`: translation succeeds
without ever recursing into `B`. -/
def gResultChild : QueryGraph :=
  { contents := [("A", some (.Query ⟨0⟩)), ("B", some (.Query ⟨1⟩))],
    edges := [⟨"A", "B", some .ExecutionOrder⟩],
    results := ["A"],
    visited := [], trace := [] }

/-- A root with a single result child `A` (one overall result node). -/
def gSingleResult : QueryGraph :=
  { contents := [("root", some (.Query ⟨0⟩)), ("A", some (.Query ⟨1⟩))],
    edges := [⟨"root", "A", some .ExecutionOrder⟩],
    results := ["A"],
    visited := [], trace := [] }

/-- A root feeding a child through a single-field projected-data
dependency. -/
def gProjection : QueryGraph :=
  { contents := [("root", some (.Query ⟨0⟩)), ("A", some (.Query ⟨1⟩))],
    edges := [⟨"root", "A", some (.ProjectedDataDependency [⟨"id"⟩] rewriteId)⟩],
    results := [],
    visited := [], trace := [] }

/-- A root feeding a child through a two-field projected-data dependency. -/
def gProjectionTwo : QueryGraph :=
  { contents := [("root", some (.Query ⟨0⟩)), ("A", some (.Query ⟨1⟩))],
    edges := [⟨"root", "A", some (.ProjectedDataDependency [⟨"id"⟩, ⟨"uid"⟩] rewriteId)⟩],
    results := [],
    visited := [], trace := [] }

/-- A single root whose content slot is empty. -/
def gNoContent : QueryGraph :=
  { contents := [("root", none)],
    edges := [], results := [], visited := [], trace := [] }

/-- A single root holding the empty marker. -/
def gEmptyMarker : QueryGraph :=
  { contents := [("root", some .Empty)],
    edges := [], results := [], visited := [], trace := [] }

/-! ### C9: empty marker translates to an empty sequence -/

/-- C9: a node whose content is the empty marker translates to an empty
`Seq` expression (and the graph is left untouched), regardless of where the
node sits in the graph: the incoming-edge set `parent_edges` and the
surrounding graph are arbitrary. -/
theorem empty_marker_yields_empty_seq (builder : QueryBuilder) (fuel : Nat) (g : QueryGraph)
    (node : NodeRef) (parent_edges : List EdgeRef)
    (h : g.node_content node = some .Empty) :
    NodeTranslator.translate builder (fuel + 1) g node parent_edges = .ok (.Seq [], g) := by
  simp [NodeTranslator.translate, h]

/-- Witness for C9 at a concrete graph. -/
theorem empty_marker_yields_empty_seq_witness :
    gEmptyMarker.node_content "root" = some .Empty ∧
    NodeTranslator.translate builder0 3 gEmptyMarker "root" [] = .ok (.Seq [], gEmptyMarker) :=
  ⟨rfl, empty_marker_yields_empty_seq builder0 2 gEmptyMarker "root" [] rfl⟩

/-! ### C4: empty-node error and failure propagation -/

theorem translate_roots_error_propagates (b : QueryBuilder) (fuel : Nat) (r : NodeRef)
    (l2 : List NodeRef) (err : TranslateError) :
    ∀ (l1 : List NodeRef) (g : QueryGraph) (es : List Expression) (gmid : QueryGraph),
      Translate.translate_roots b fuel g l1 = .ok (es, gmid) →
      NodeTranslator.translate b fuel gmid r [] = .error err →
      Translate.translate_roots b fuel g (l1 ++ r :: l2) = .error err := by
  intro l1
  induction l1 with
  | nil =>
    intro g es gmid h1 h2
    unfold Translate.translate_roots at h1
    cases h1
    simp [Translate.translate_roots, h2]
  | cons a t ih =>
    intro g es gmid h1 h2
    unfold Translate.translate_roots at h1
    cases ha : NodeTranslator.translate b fuel g a [] with
    | error e => rw [ha] at h1; cases h1
    | ok p =>
      obtain ⟨e1, g1⟩ := p
      rw [ha] at h1
      have h1' : (match Translate.translate_roots b fuel g1 t with
        | .error e => Except.error e
        | .ok (exprs, graph) => .ok (e1 :: exprs, graph)) = Except.ok (es, gmid) := h1
      cases ht : Translate.translate_roots b fuel g1 t with
      | error e => rw [ht] at h1'; cases h1'
      | ok q =>
        obtain ⟨q1, q2⟩ := q
        rw [ht] at h1'
        cases h1'
        show Translate.translate_roots b fuel g (a :: (t ++ r :: l2)) = .error err
        unfold Translate.translate_roots
        rw [ha]
        show (match Translate.translate_roots b fuel g1 (t ++ r :: l2) with
          | .error e => Except.error e
          | .ok (exprs, graph) => .ok (e1 :: exprs, graph)) = Except.error err
        rw [ih g1 _ _ ht h2]

/-- C4: a node with absent content fails with the distinct empty-node error
naming the node; and when some root's translation fails (after the roots
before it succeeded), the whole top-level translation fails with that same
error and returns no expression. -/
theorem empty_content_error_and_propagation (b : QueryBuilder) :
    (∀ (fuel : Nat) (g : QueryGraph) (node : NodeRef) (pes : List EdgeRef),
       g.node_content node = none →
       NodeTranslator.translate b (fuel + 1) g node pes = .error (.NodeContentEmpty node)) ∧
    (∀ (fuel : Nat) (g : QueryGraph) (l1 : List NodeRef) (r : NodeRef) (l2 : List NodeRef)
       (es : List Expression) (gmid : QueryGraph) (err : TranslateError),
       g.root_nodes = l1 ++ r :: l2 →
       Translate.translate_roots b fuel g l1 = .ok (es, gmid) →
       NodeTranslator.translate b fuel gmid r [] = .error err →
       Translate.translate b fuel g = .error err) := by
  constructor
  · intro fuel g node pes h
    simp [NodeTranslator.translate, h]
  · intro fuel g l1 r l2 es gmid err hroots h1 h2
    have h3 := translate_roots_error_propagates b fuel r l2 err l1 g es gmid h1 h2
    unfold Translate.translate Translate.translate_graph
    rw [hroots, h3]
    rfl

/-- Witness for C4: the graph whose only root has no content fails with the
empty-node error naming it, both at the node translator and at the top
level. -/
theorem empty_content_error_and_propagation_witness :
    gNoContent.node_content "root" = none ∧
    NodeTranslator.translate builder0 5 gNoContent "root" [] = .error (.NodeContentEmpty "root") ∧
    gNoContent.root_nodes = [] ++ "root" :: [] ∧
    Translate.translate builder0 5 gNoContent = .error (.NodeContentEmpty "root") :=
  ⟨rfl,
   (empty_content_error_and_propagation builder0).1 4 gNoContent "root" [] rfl,
   rfl,
   (empty_content_error_and_propagation builder0).2 5 gNoContent [] "root" [] [] gNoContent
     (.NodeContentEmpty "root") rfl rfl
     ((empty_content_error_and_propagation builder0).1 4 gNoContent "root" [] rfl)⟩

/-! ### Effect of a pluck on the graph observations -/

theorem getD_set_self {α : Type} (l : List α) (i : Nat) (a d : α) (h : i < l.length) :
    (l.set i a).getD i d = a := by
  simp [List.getD_eq_getElem?_getD, List.getElem?_set_self h]

theorem getD_set_ne {α : Type} (l : List α) {i j : Nat} (a d : α) (h : i ≠ j) :
    (l.set i a).getD j d = l.getD j d := by
  simp [List.getD_eq_getElem?_getD, List.getElem?_set_ne h]

theorem QueryGraph.edge_content_some_lt {g : QueryGraph} {e : EdgeRef}
    {dep : QueryGraphDependency} (h : g.edge_content e = some dep) : e < g.edges.length := by
  by_contra hlt
  push_neg at hlt
  unfold edge_content at h
  rw [List.getD_eq_getElem?_getD, List.getElem?_eq_none hlt] at h
  simp [EdgeSlot.empty] at h

theorem QueryGraph.with_edge_plucked_edges_length (g : QueryGraph) (e : EdgeRef) (b : NodeRef) :
    (g.with_edge_plucked e b).edges.length = g.edges.length := by
  simp [with_edge_plucked]

theorem QueryGraph.with_edge_plucked_edge_source (g : QueryGraph) (e : EdgeRef) (b : NodeRef)
    (e' : EdgeRef) : (g.with_edge_plucked e b).edge_source e' = g.edge_source e' := by
  unfold with_edge_plucked edge_source
  simp only
  by_cases hlt : e < g.edges.length
  · by_cases heq : e = e'
    · subst heq
      rw [getD_set_self _ _ _ _ hlt]
    · rw [getD_set_ne _ _ _ heq]
  · rw [List.set_eq_of_length_le (Nat.le_of_not_lt hlt)]

theorem QueryGraph.with_edge_plucked_edge_target (g : QueryGraph) (e : EdgeRef) (b : NodeRef)
    (e' : EdgeRef) : (g.with_edge_plucked e b).edge_target e' = g.edge_target e' := by
  unfold with_edge_plucked edge_target
  simp only
  by_cases hlt : e < g.edges.length
  · by_cases heq : e = e'
    · subst heq
      rw [getD_set_self _ _ _ _ hlt]
    · rw [getD_set_ne _ _ _ heq]
  · rw [List.set_eq_of_length_le (Nat.le_of_not_lt hlt)]

theorem QueryGraph.with_edge_plucked_edge_content_ne (g : QueryGraph) {e e' : EdgeRef}
    (b : NodeRef) (h : e ≠ e') :
    (g.with_edge_plucked e b).edge_content e' = g.edge_content e' := by
  unfold with_edge_plucked edge_content
  simp only
  by_cases hlt : e < g.edges.length
  · rw [getD_set_ne _ _ _ h]
  · rw [List.set_eq_of_length_le (Nat.le_of_not_lt hlt)]

theorem QueryGraph.with_edge_plucked_edge_content_self (g : QueryGraph) {e : EdgeRef}
    (b : NodeRef) (h : e < g.edges.length) :
    (g.with_edge_plucked e b).edge_content e = none := by
  unfold with_edge_plucked edge_content
  simp only
  rw [getD_set_self _ _ _ _ h]

theorem QueryGraph.with_edge_plucked_node_content (g : QueryGraph) (e : EdgeRef) (b : NodeRef)
    (id : NodeRef) : (g.with_edge_plucked e b).node_content id = g.node_content id := rfl

theorem QueryGraph.with_edge_plucked_results (g : QueryGraph) (e : EdgeRef) (b : NodeRef) :
    (g.with_edge_plucked e b).results = g.results := rfl

theorem QueryGraph.with_edge_plucked_trace (g : QueryGraph) (e : EdgeRef) (b : NodeRef) :
    (g.with_edge_plucked e b).trace = g.trace ++ [.edge e b] := rfl

theorem QueryGraph.with_node_plucked_node_content (g : QueryGraph) (node id : NodeRef) :
    (g.with_node_plucked node).node_content id =
      if id = node then none else g.node_content id := by
  unfold with_node_plucked node_content
  simp only
  rw [List.find?_map]
  have hpred : ((fun p : NodeRef × Option Node => p.1 == id) ∘
      (fun p : NodeRef × Option Node => if p.1 == node then (p.1, none) else p)) =
      (fun p : NodeRef × Option Node => p.1 == id) := by
    funext p
    by_cases h : p.1 = node <;> simp [h]
  rw [hpred]
  cases hf : g.contents.find? (fun p => p.1 == id) with
  | none => simp
  | some q =>
    have hq : (q.1 == id) = true := (List.find?_eq_some.mp hf).1
    have hq' : q.1 = id := by simpa using hq
    by_cases h2 : id = node
    · subst h2
      simp [hq']
    · simp [hq', h2]

theorem QueryGraph.with_node_plucked_edges (g : QueryGraph) (node : NodeRef) :
    (g.with_node_plucked node).edges = g.edges := rfl

theorem QueryGraph.with_node_plucked_results (g : QueryGraph) (node : NodeRef) :
    (g.with_node_plucked node).results = g.results := rfl

theorem QueryGraph.with_node_plucked_trace (g : QueryGraph) (node : NodeRef) :
    (g.with_node_plucked node).trace = g.trace ++ [.node node] := rfl

/-! ### C5: dependency application order and effect -/

/-- C5: the incoming edges of a node are applied to its pending operation in
the order received: the head edge is plucked first and the loop continues on
the rest.  An ordering-only dependency leaves the pending operation
unchanged; a projected-data dependency pairs every selected field with a
placeholder named after the edge's source node carrying the any-type marker,
invokes the edge's rewrite function on the current operation with that field
set, and continues with the function's result (its failure aborting the
loop). -/
theorem dependencies_applied_in_order :
    (∀ (g : QueryGraph) (node : NodeRef) (op : Node) (edge : EdgeRef) (rest : List EdgeRef),
       g.edge_content edge = some .ExecutionOrder →
       NodeTranslator.apply_parent_edges g node op (edge :: rest) =
         NodeTranslator.apply_parent_edges (g.with_edge_plucked edge node) node op rest) ∧
    (∀ (g : QueryGraph) (node : NodeRef) (op : Node) (edge : EdgeRef) (rest : List EdgeRef)
       (selection : FieldSelection) (f : Node → List SelectionResult → Except String Node),
       g.edge_content edge = some (.ProjectedDataDependency selection f) →
       NodeTranslator.apply_parent_edges g node op (edge :: rest) =
         match f op [SelectionResult.new (selection.selections.map
             (fun field => (field, PrismaValue.Placeholder (g.edge_source edge) .Any)))] with
         | .ok op2 => NodeTranslator.apply_parent_edges (g.with_edge_plucked edge node) node op2 rest
         | .error msg => .error (.GraphBuildError msg)) := by
  constructor
  · intro g node op edge rest h
    conv_lhs => unfold NodeTranslator.apply_parent_edges
    rw [QueryGraph.pluck_edge_eq_of_content node h]
  · intro g node op edge rest selection f h
    conv_lhs => unfold NodeTranslator.apply_parent_edges
    rw [QueryGraph.pluck_edge_eq_of_content node h]
    show (match f op [SelectionResult.new (selection.selections.map
        (fun field => (field, PrismaValue.Placeholder
          ((g.with_edge_plucked edge node).edge_source edge) .Any)))] with
      | .ok op2 => NodeTranslator.apply_parent_edges (g.with_edge_plucked edge node) node op2 rest
      | .error msg => .error (.GraphBuildError msg)) = _
    rw [QueryGraph.with_edge_plucked_edge_source]

/-- Witness for C5: both dependency kinds applied at concrete graphs. -/
theorem dependencies_applied_in_order_witness :
    gTwoResults.edge_content 0 = some .ExecutionOrder ∧
    NodeTranslator.apply_parent_edges gTwoResults "A" (.Query ⟨7⟩) [0] =
      NodeTranslator.apply_parent_edges (gTwoResults.with_edge_plucked 0 "A") "A" (.Query ⟨7⟩) [] ∧
    gProjection.edge_content 0 =
      some (.ProjectedDataDependency [⟨"id"⟩] rewriteId) ∧
    NodeTranslator.apply_parent_edges gProjection "A" (.Query ⟨7⟩) [0] =
      match rewriteId (.Query ⟨7⟩) [SelectionResult.new ((FieldSelection.selections [⟨"id"⟩]).map
          (fun field => (field, PrismaValue.Placeholder (gProjection.edge_source 0) .Any)))] with
      | .ok op2 => NodeTranslator.apply_parent_edges (gProjection.with_edge_plucked 0 "A") "A" op2 []
      | .error msg => .error (.GraphBuildError msg) :=
  ⟨rfl,
   dependencies_applied_in_order.1 gTwoResults "A" (.Query ⟨7⟩) 0 [] rfl,
   rfl,
   dependencies_applied_in_order.2 gProjection "A" (.Query ⟨7⟩) 0 [] [⟨"id"⟩] rewriteId rfl⟩

/-! ### C6: the single-field projection pre-pass -/

/-- C6 (amended): for an edge carrying a single-field projected-data
dependency, the child's expression is the recursed translation wrapped in a
`Let` rebinding the edge's source identifier to a `MapField` of that field
over `Get` of the same identifier; for an edge carrying no projected-data
dependency at all, the recursed expression is returned unchanged; but for an
edge carrying a projected-data dependency whose selection does not have
exactly one field, the pre-pass aborts (`todo!`) instead of returning the
recursed expression. -/
theorem projection_pre_pass :
    (∀ (rec : Rec) (g : QueryGraph) (edge : EdgeRef) (child : NodeRef)
       (fld : ScalarField) (f : Node → List SelectionResult → Except String Node),
       g.edge_content edge = some (.ProjectedDataDependency [fld] f) →
       NodeTranslator.process_child_with_dependency rec g edge child =
         match rec g child (g.incoming_edges child) with
         | .ok (expr, g2) =>
             .ok (.Let [Binding.new (g.edge_source edge)
               (.MapField fld.db_name (.Get (g.edge_source edge)))] expr, g2)
         | .error e => .error e) ∧
    (∀ (rec : Rec) (g : QueryGraph) (edge : EdgeRef) (child : NodeRef),
       (∀ (selection : FieldSelection) (f : Node → List SelectionResult → Except String Node),
          g.edge_content edge ≠ some (.ProjectedDataDependency selection f)) →
       NodeTranslator.process_child_with_dependency rec g edge child =
         rec g child (g.incoming_edges child)) ∧
    (∀ (rec : Rec) (g : QueryGraph) (edge : EdgeRef) (child : NodeRef)
       (selection : FieldSelection) (f : Node → List SelectionResult → Except String Node),
       g.edge_content edge = some (.ProjectedDataDependency selection f) →
       selection.length ≠ 1 →
       NodeTranslator.process_child_with_dependency rec g edge child =
         .error (.Panic "todo: MapField with multiple fields")) := by
  refine ⟨?_, ?_, ?_⟩
  · intro rec g edge child fld f h
    unfold NodeTranslator.process_child_with_dependency
    dsimp only
    rw [h]
    dsimp only [FieldSelection.selections]
    cases hrec : rec g child (g.incoming_edges child) with
    | error e => rfl
    | ok p => obtain ⟨expr, g2⟩ := p; rfl
  · intro rec g edge child h
    unfold NodeTranslator.process_child_with_dependency
    dsimp only
    cases hc : g.edge_content edge with
    | none =>
      cases hrec : rec g child (g.incoming_edges child) with
      | error e => rfl
      | ok p => obtain ⟨expr, g2⟩ := p; rfl
    | some dep =>
      cases dep with
      | ProjectedDataDependency selection f => exact absurd hc (h selection f)
      | ExecutionOrder =>
        cases hrec : rec g child (g.incoming_edges child) with
        | error e => rfl
        | ok p => obtain ⟨expr, g2⟩ := p; rfl
      | DataDependency =>
        cases hrec : rec g child (g.incoming_edges child) with
        | error e => rfl
        | ok p => obtain ⟨expr, g2⟩ := p; rfl
      | Then =>
        cases hrec : rec g child (g.incoming_edges child) with
        | error e => rfl
        | ok p => obtain ⟨expr, g2⟩ := p; rfl
      | Else =>
        cases hrec : rec g child (g.incoming_edges child) with
        | error e => rfl
        | ok p => obtain ⟨expr, g2⟩ := p; rfl
  · intro rec g edge child selection f h hlen
    unfold NodeTranslator.process_child_with_dependency
    dsimp only
    rw [h]
    dsimp only [FieldSelection.selections]
    cases selection with
    | nil => rfl
    | cons a t =>
      cases t with
      | nil => exact absurd rfl hlen
      | cons b t2 => rfl

/-- Counterexample for C6 as stated: an edge carrying a two-field
projected-data dependency carries no single-field projection, yet the
pre-pass aborts with the `todo!` panic instead of returning the (successful)
recursed translation unchanged. -/
theorem projection_pre_pass_counterexample :
    gProjectionTwo.edge_content 0 =
      some (.ProjectedDataDependency [⟨"id"⟩, ⟨"uid"⟩] rewriteId) ∧
    Except.map Prod.fst
      (NodeTranslator.translate builder0 5 gProjectionTwo "A"
        (gProjectionTwo.incoming_edges "A")) = .ok (.Query ⟨1⟩) ∧
    NodeTranslator.process_child_with_dependency (NodeTranslator.translate builder0 5)
        gProjectionTwo 0 "A" = .error (.Panic "todo: MapField with multiple fields") :=
  ⟨rfl, rfl, rfl⟩

/-- Witness for the amended C6: all three behaviors at concrete graphs. -/
theorem projection_pre_pass_witness :
    gProjection.edge_content 0 = some (.ProjectedDataDependency [⟨"id"⟩] rewriteId) ∧
    NodeTranslator.process_child_with_dependency (NodeTranslator.translate builder0 5)
        gProjection 0 "A" =
      (match NodeTranslator.translate builder0 5 gProjection "A"
          (gProjection.incoming_edges "A") with
       | .ok (expr, g2) =>
           .ok (.Let [Binding.new (gProjection.edge_source 0)
             (.MapField (ScalarField.db_name ⟨"id"⟩) (.Get (gProjection.edge_source 0)))] expr, g2)
       | .error e => .error e) ∧
    gTwoResults.edge_content 0 = some .ExecutionOrder ∧
    NodeTranslator.process_child_with_dependency (NodeTranslator.translate builder0 5)
        gTwoResults 0 "A" =
      NodeTranslator.translate builder0 5 gTwoResults "A" (gTwoResults.incoming_edges "A") ∧
    NodeTranslator.process_child_with_dependency (NodeTranslator.translate builder0 5)
        gProjectionTwo 0 "A" = .error (.Panic "todo: MapField with multiple fields") :=
  ⟨rfl,
   projection_pre_pass.1 (NodeTranslator.translate builder0 5) gProjection 0 "A" ⟨"id"⟩
     rewriteId rfl,
   rfl,
   projection_pre_pass.2.1 (NodeTranslator.translate builder0 5) gTwoResults 0 "A"
     (by intro selection f hcontra; cases hcontra),
   projection_pre_pass.2.2 (NodeTranslator.translate builder0 5) gProjectionTwo 0 "A"
     [⟨"id"⟩, ⟨"uid"⟩] rewriteId rfl (by decide)⟩

/-! ### Inversion of `translate_query` -/

/-- The two possible outcomes of the child-recursion step of
`translate_query`: skipped (for a result node) or delegated to
`process_children`. -/
def children_step (rec : Rec) (g : QueryGraph) (node : NodeRef)
    (children : List Expression) (gc : QueryGraph) : Prop :=
  ((g.mark_visited node).is_result_node node = true ∧
     children = [] ∧ gc = g.mark_visited node) ∨
  ((g.mark_visited node).is_result_node node = false ∧
     NodeTranslator.process_children rec (g.mark_visited node) node = .ok (children, gc))

theorem translate_query_inversion (rec : Rec) (b : QueryBuilder) (g : QueryGraph)
    (node : NodeRef) (pes : List EdgeRef) (e : Expression) (g' : QueryGraph)
    (h : NodeTranslator.translate_query rec b g node pes = .ok (e, g')) :
    ∃ (children : List Expression) (gc : QueryGraph) (op : Node) (g2 : QueryGraph)
      (op2 : Node) (g3 : QueryGraph) (q : Query) (db : DbQuery),
      children_step rec g node children gc ∧
      gc.pluck_node node = .ok (op, g2) ∧
      NodeTranslator.apply_parent_edges g2 node op pes = .ok (op2, g3) ∧
      op2 = .Query q ∧
      query.translate_query q b = .ok (.Query db) ∧
      g' = g3 ∧
      ((children = [] ∧ e = .Query db) ∨
       (children ≠ [] ∧ e = .Let [Binding.new node (.Query db)] (.Seq children))) := by
  unfold NodeTranslator.translate_query at h
  dsimp only at h
  have main : ∀ (children : List Expression) (gc : QueryGraph),
      children_step rec g node children gc →
      (match gc.pluck_node node with
       | .error e => (Except.error e : TranslateResult (Expression × QueryGraph))
       | .ok (op, graph) =>
         match NodeTranslator.apply_parent_edges graph node op pes with
         | .error e => Except.error e
         | .ok (op, graph) =>
           match op with
           | .Query q =>
             match query.translate_query q b with
             | .error e => Except.error e
             | .ok expr =>
               if children.isEmpty then Except.ok (expr, graph)
               else Except.ok (.Let [Binding.new node expr] (.Seq children), graph)
           | _ => Except.error (.Panic "current node must be query")) = Except.ok (e, g') →
      ∃ (children2 : List Expression) (gc2 : QueryGraph) (op : Node) (g2 : QueryGraph)
        (op2 : Node) (g3 : QueryGraph) (q : Query) (db : DbQuery),
        children_step rec g node children2 gc2 ∧
        gc2.pluck_node node = .ok (op, g2) ∧
        NodeTranslator.apply_parent_edges g2 node op pes = .ok (op2, g3) ∧
        op2 = .Query q ∧
        query.translate_query q b = .ok (.Query db) ∧
        g' = g3 ∧
        ((children2 = [] ∧ e = .Query db) ∨
         (children2 ≠ [] ∧ e = .Let [Binding.new node (.Query db)] (.Seq children2))) := by
    intro children gc hstep hm
    cases hpl : gc.pluck_node node with
    | error err => rw [hpl] at hm; cases hm
    | ok p =>
      obtain ⟨op, g2⟩ := p
      rw [hpl] at hm
      have hm1 : (match NodeTranslator.apply_parent_edges g2 node op pes with
          | .error e => (Except.error e : TranslateResult (Expression × QueryGraph))
          | .ok (op, graph) =>
            match op with
            | Node.Query q =>
              match query.translate_query q b with
              | .error e => Except.error e
              | .ok expr =>
                if children.isEmpty then Except.ok (expr, graph)
                else Except.ok (.Let [Binding.new node expr] (.Seq children), graph)
            | _ => Except.error (.Panic "current node must be query")) =
          Except.ok (e, g') := hm
      cases happ : NodeTranslator.apply_parent_edges g2 node op pes with
      | error err => rw [happ] at hm1; cases hm1
      | ok p2 =>
        obtain ⟨op2, g3⟩ := p2
        rw [happ] at hm1
        have hm2 : (match op2 with
            | Node.Query q =>
              match query.translate_query q b with
              | .error e => (Except.error e : TranslateResult (Expression × QueryGraph))
              | .ok expr =>
                if children.isEmpty then Except.ok (expr, g3)
                else Except.ok (.Let [Binding.new node expr] (.Seq children), g3)
            | _ => Except.error (.Panic "current node must be query")) =
            Except.ok (e, g') := hm1
        cases op2 with
        | Empty => cases hm2
        | Flow => cases hm2
        | Query q =>
          have hm2' : (match query.translate_query q b with
              | .error e => (Except.error e : TranslateResult (Expression × QueryGraph))
              | .ok expr =>
                if children.isEmpty then Except.ok (expr, g3)
                else Except.ok (.Let [Binding.new node expr] (.Seq children), g3)) =
              Except.ok (e, g') := hm2
          cases hlow : query.translate_query q b with
          | error err => rw [hlow] at hm2'; cases hm2'
          | ok expr =>
            rw [hlow] at hm2'
            obtain ⟨db, hdb⟩ : ∃ db, expr = .Query db := by
              unfold query.translate_query at hlow
              cases hb : b q with
              | error msg => rw [hb] at hlow; cases hlow
              | ok db => rw [hb] at hlow; cases hlow; exact ⟨db, rfl⟩
            subst hdb
            cases children with
            | nil =>
              have hm3 : Except.ok ((Expression.Query db : Expression), g3) =
                  Except.ok (e, g') := hm2'
              cases hm3
              exact ⟨[], gc, op, g2, .Query q, g', q, db, hstep, hpl, happ, rfl, hlow, rfl,
                Or.inl ⟨rfl, rfl⟩⟩
            | cons c cs =>
              have hm3 : Except.ok ((Expression.Let [Binding.new node (.Query db)]
                  (.Seq (c :: cs)) : Expression), g3) = Except.ok (e, g') := hm2'
              cases hm3
              exact ⟨c :: cs, gc, op, g2, .Query q, g', q, db, hstep, hpl, happ, rfl, hlow, rfl,
                Or.inr ⟨by simp, rfl⟩⟩
  cases hres : (g.mark_visited node).is_result_node node with
  | true =>
    rw [hres] at h
    exact main [] (g.mark_visited node) (Or.inl ⟨hres, rfl, rfl⟩) h
  | false =>
    rw [hres] at h
    cases hpc : NodeTranslator.process_children rec (g.mark_visited node) node with
    | error err => rw [hpc] at h; cases h
    | ok pc =>
      obtain ⟨children, gc⟩ := pc
      rw [hpc] at h
      exact main children gc (Or.inr ⟨hres, hpc⟩) h

/-! ### C7: binding scope around a translated query node -/

/-- C7: when a node holding a pending operation is translated, a non-empty
child-expression list makes the result `Let` with the single binding of the
node's identifier to the lowered leaf expression and body `Seq` of the
children; with no child expressions the lowered leaf (an opaque query leaf)
is returned unchanged.  The children come from `process_children` unless the
node is itself a result node, in which case recursion was skipped. -/
theorem query_node_wraps_children (rec : Rec) (b : QueryBuilder) (g : QueryGraph)
    (node : NodeRef) (pes : List EdgeRef) (e : Expression) (g' : QueryGraph)
    (h : NodeTranslator.translate_query rec b g node pes = .ok (e, g')) :
    ∃ (children : List Expression) (gc : QueryGraph) (db : DbQuery),
      children_step rec g node children gc ∧
      ((children = [] ∧ e = .Query db) ∨
       (children ≠ [] ∧ e = .Let [Binding.new node (.Query db)] (.Seq children))) := by
  obtain ⟨children, gc, op, g2, op2, g3, q, db, hstep, hpl, happ, hq, hlow, hg, hshape⟩ :=
    translate_query_inversion rec b g node pes e g' h
  exact ⟨children, gc, db, hstep, hshape⟩

/-- Witness for C7: a root with one (result) child translates to the `Let`
of the root's identifier over the sequence of child expressions. -/
theorem query_node_wraps_children_witness :
    ∃ (children : List Expression) (gc : QueryGraph) (db : DbQuery),
      children_step (NodeTranslator.translate builder0 9) gSingleResult "root" children gc ∧
      ((children = [] ∧
          (Expression.Let [Binding.new "root" (.Query ⟨0⟩)]
            (.Seq [.Let [Binding.new "A" (.Query ⟨1⟩)] (.Get "A")])) = .Query db) ∨
       (children ≠ [] ∧
          (Expression.Let [Binding.new "root" (.Query ⟨0⟩)]
            (.Seq [.Let [Binding.new "A" (.Query ⟨1⟩)] (.Get "A")])) =
            .Let [Binding.new "root" (.Query db)] (.Seq children))) :=
  query_node_wraps_children (NodeTranslator.translate builder0 9) builder0 gSingleResult
    "root" [] _ _ rfl

/-! ### Consumption accounting over the ghost trace -/

/-- How many times the trace records a pluck of node `id`. -/
def tr_node_count (id : NodeRef) (t : List PluckEvent) : Nat :=
  t.countP (fun ev => match ev with | .node j => j == id | .edge _ _ => false)

/-- How many times the trace records a pluck of edge `i`. -/
def tr_edge_count (i : EdgeRef) (t : List PluckEvent) : Nat :=
  t.countP (fun ev => match ev with | .node _ => false | .edge j _ => j == i)

/-- The events appended to the trace between two graph states. -/
def trace_delta (g g' : QueryGraph) : List PluckEvent := g'.trace.drop g.trace.length

/-- A single translation step (or any sequence of steps) relates its input
and output graphs as follows: the result-node set and the edge endpoints are
untouched, the trace only grows, and each node's (edge's) consumable slot is
either untouched and never plucked in between, or plucked exactly once going
from occupied to empty. -/
structure Evolves (g g' : QueryGraph) : Prop where
  results_eq : g'.results = g.results
  edges_len : g'.edges.length = g.edges.length
  source_eq : ∀ i, g'.edge_source i = g.edge_source i
  target_eq : ∀ i, g'.edge_target i = g.edge_target i
  trace_ext : g'.trace = g.trace ++ trace_delta g g'
  node_acc : ∀ id,
    (tr_node_count id (trace_delta g g') = 0 ∧ g'.node_content id = g.node_content id) ∨
    (tr_node_count id (trace_delta g g') = 1 ∧ g.node_content id ≠ none ∧
      g'.node_content id = none)
  edge_acc : ∀ i,
    (tr_edge_count i (trace_delta g g') = 0 ∧ g'.edge_content i = g.edge_content i) ∨
    (tr_edge_count i (trace_delta g g') = 1 ∧ g.edge_content i ≠ none ∧
      g'.edge_content i = none)

/-- Every edge pluck recorded between the two states was performed by the
translation of the edge's target node. -/
def targeted_delta (g g' : QueryGraph) : Prop :=
  ∀ i n, PluckEvent.edge i n ∈ trace_delta g g' → g.edge_target i = n

/-- `Evolves` together with `targeted_delta`. -/
def EvolvesT (g g' : QueryGraph) : Prop := Evolves g g' ∧ targeted_delta g g'

theorem trace_delta_of_append (g g' : QueryGraph) (δ : List PluckEvent)
    (h : g'.trace = g.trace ++ δ) : trace_delta g g' = δ := by
  unfold trace_delta
  rw [h, List.drop_left]

theorem evolvesT_refl (g : QueryGraph) : EvolvesT g g := by
  have hδ : trace_delta g g = [] := by
    unfold trace_delta
    exact List.drop_length g.trace
  refine ⟨⟨rfl, rfl, fun i => rfl, fun i => rfl, by simp [hδ], ?_, ?_⟩, ?_⟩
  · intro id
    exact Or.inl ⟨by simp [hδ, tr_node_count], rfl⟩
  · intro i
    exact Or.inl ⟨by simp [hδ, tr_edge_count], rfl⟩
  · intro i n hmem
    rw [hδ] at hmem
    cases hmem

theorem evolvesT_trans {g g' g'' : QueryGraph} (h1 : EvolvesT g g') (h2 : EvolvesT g' g'') :
    EvolvesT g g'' := by
  obtain ⟨e1, t1⟩ := h1
  obtain ⟨e2, t2⟩ := h2
  have htr : g''.trace = g.trace ++ (trace_delta g g' ++ trace_delta g' g'') := by
    rw [e2.trace_ext, e1.trace_ext, List.append_assoc]
  have hδ : trace_delta g g'' = trace_delta g g' ++ trace_delta g' g'' :=
    trace_delta_of_append _ _ _ htr
  refine ⟨⟨e2.results_eq.trans e1.results_eq, e2.edges_len.trans e1.edges_len,
    fun i => (e2.source_eq i).trans (e1.source_eq i),
    fun i => (e2.target_eq i).trans (e1.target_eq i),
    htr.trans (by rw [hδ]), ?_, ?_⟩, ?_⟩
  · intro id
    have hsum : tr_node_count id (trace_delta g g'') =
        tr_node_count id (trace_delta g g') + tr_node_count id (trace_delta g' g'') := by
      simp [hδ, tr_node_count, List.countP_append]
    rcases e1.node_acc id with ⟨c1, h1⟩ | ⟨c1, hne1, h1⟩ <;>
      rcases e2.node_acc id with ⟨c2, h2⟩ | ⟨c2, hne2, h2⟩
    · exact Or.inl ⟨by omega, h2.trans h1⟩
    · exact Or.inr ⟨by omega, h1 ▸ hne2, h2⟩
    · exact Or.inr ⟨by omega, hne1, h2.trans h1⟩
    · exact absurd h1 hne2
  · intro i
    have hsum : tr_edge_count i (trace_delta g g'') =
        tr_edge_count i (trace_delta g g') + tr_edge_count i (trace_delta g' g'') := by
      simp [hδ, tr_edge_count, List.countP_append]
    rcases e1.edge_acc i with ⟨c1, h1⟩ | ⟨c1, hne1, h1⟩ <;>
      rcases e2.edge_acc i with ⟨c2, h2⟩ | ⟨c2, hne2, h2⟩
    · exact Or.inl ⟨by omega, h2.trans h1⟩
    · exact Or.inr ⟨by omega, h1 ▸ hne2, h2⟩
    · exact Or.inr ⟨by omega, hne1, h2.trans h1⟩
    · exact absurd h1 hne2
  · intro i n hmem
    rw [hδ] at hmem
    rcases List.mem_append.mp hmem with hm | hm
    · exact t1 i n hm
    · exact (e1.target_eq i) ▸ t2 i n hm

theorem evolvesT_mark_visited (g : QueryGraph) (node : NodeRef) :
    EvolvesT g (g.mark_visited node) := by
  have hδ : trace_delta g (g.mark_visited node) = [] := by
    unfold trace_delta QueryGraph.mark_visited
    exact List.drop_length g.trace
  refine ⟨⟨rfl, rfl, fun i => rfl, fun i => rfl, by rw [hδ]; simp [QueryGraph.mark_visited], ?_, ?_⟩, ?_⟩
  · intro id
    exact Or.inl ⟨by simp [hδ, tr_node_count], rfl⟩
  · intro i
    exact Or.inl ⟨by simp [hδ, tr_edge_count], rfl⟩
  · intro i n hmem
    rw [hδ] at hmem
    cases hmem

theorem evolvesT_pluck_node {g : QueryGraph} {node : NodeRef} {n : Node} {g' : QueryGraph}
    (h : g.pluck_node node = .ok (n, g')) : EvolvesT g g' := by
  have hc : g.node_content node = some n ∧ g' = g.with_node_plucked node := by
    unfold QueryGraph.pluck_node at h
    cases hnc : g.node_content node with
    | none => rw [hnc] at h; cases h
    | some m =>
      rw [hnc] at h
      cases h
      exact ⟨rfl, rfl⟩
  obtain ⟨hnc, rfl⟩ := hc
  have hδ : trace_delta g (g.with_node_plucked node) = [.node node] :=
    trace_delta_of_append _ _ _ (g.with_node_plucked_trace node)
  refine ⟨⟨rfl, rfl, fun i => rfl, fun i => rfl, by
    rw [hδ]; exact g.with_node_plucked_trace node, ?_, ?_⟩, ?_⟩
  · intro id
    rw [QueryGraph.with_node_plucked_node_content]
    by_cases hid : id = node
    · subst hid
      refine Or.inr ⟨by simp [hδ, tr_node_count], by rw [hnc]; simp, by simp⟩
    · refine Or.inl ⟨?_, by simp [hid]⟩
      have : (node == id) = false := by
        simp
        exact fun hcontra => hid hcontra.symm
      simp [hδ, tr_node_count, this]
  · intro i
    exact Or.inl ⟨by simp [hδ, tr_edge_count], rfl⟩
  · intro i n' hmem
    rw [hδ] at hmem
    simp at hmem

theorem evolvesT_pluck_edge {g : QueryGraph} {e : EdgeRef} {byNode : NodeRef}
    {dep : QueryGraphDependency} {g' : QueryGraph}
    (h : g.pluck_edge e byNode = .ok (dep, g')) (htgt : g.edge_target e = byNode) :
    EvolvesT g g' := by
  have hc : g.edge_content e = some dep ∧ g' = g.with_edge_plucked e byNode := by
    unfold QueryGraph.pluck_edge at h
    cases hec : g.edge_content e with
    | none => rw [hec] at h; cases h
    | some d =>
      rw [hec] at h
      cases h
      exact ⟨rfl, rfl⟩
  obtain ⟨hec, rfl⟩ := hc
  have hlt : e < g.edges.length := QueryGraph.edge_content_some_lt hec
  have hδ : trace_delta g (g.with_edge_plucked e byNode) = [.edge e byNode] :=
    trace_delta_of_append _ _ _ (g.with_edge_plucked_trace e byNode)
  refine ⟨⟨g.with_edge_plucked_results e byNode,
    g.with_edge_plucked_edges_length e byNode,
    g.with_edge_plucked_edge_source e byNode,
    g.with_edge_plucked_edge_target e byNode,
    by rw [hδ]; exact g.with_edge_plucked_trace e byNode, ?_, ?_⟩, ?_⟩
  · intro id
    exact Or.inl ⟨by simp [hδ, tr_node_count], g.with_edge_plucked_node_content e byNode id⟩
  · intro i
    by_cases hie : e = i
    · subst hie
      refine Or.inr ⟨by simp [hδ, tr_edge_count], by rw [hec]; simp, ?_⟩
      exact g.with_edge_plucked_edge_content_self byNode hlt
    · refine Or.inl ⟨?_, g.with_edge_plucked_edge_content_ne byNode hie⟩
      have : (e == i) = false := by
        simp
        exact hie
      simp [hδ, tr_edge_count, this]
  · intro i n hmem
    rw [hδ] at hmem
    simp at hmem
    obtain ⟨hi, hn⟩ := hmem
    subst hi
    subst hn
    exact htgt

theorem evolvesT_apply_parent_edges :
    ∀ (pes : List EdgeRef) (g : QueryGraph) (node : NodeRef) (op op' : Node) (g' : QueryGraph),
      (∀ i ∈ pes, g.edge_target i = node) →
      NodeTranslator.apply_parent_edges g node op pes = .ok (op', g') →
      EvolvesT g g' := by
  intro pes
  induction pes with
  | nil =>
    intro g node op op' g' hpre h
    unfold NodeTranslator.apply_parent_edges at h
    cases h
    exact evolvesT_refl g
  | cons e rest ih =>
    intro g node op op' g' hpre h
    unfold NodeTranslator.apply_parent_edges at h
    cases hpl : g.pluck_edge e node with
    | error err => rw [hpl] at h; cases h
    | ok p =>
      obtain ⟨dep, g1⟩ := p
      rw [hpl] at h
      have hev1 : EvolvesT g g1 := evolvesT_pluck_edge hpl (hpre e (by simp))
      have hpre1 : ∀ i ∈ rest, g1.edge_target i = node := by
        intro i hi
        rw [hev1.1.target_eq i]
        exact hpre i (by simp [hi])
      cases dep with
      | ExecutionOrder =>
        have h' : NodeTranslator.apply_parent_edges g1 node op rest = .ok (op', g') := h
        exact evolvesT_trans hev1 (ih g1 node op op' g' hpre1 h')
      | ProjectedDataDependency selection f =>
        have h' : (match f op [SelectionResult.new (selection.selections.map
            (fun field => (field, PrismaValue.Placeholder (g1.edge_source e) .Any)))] with
          | .ok op2 => NodeTranslator.apply_parent_edges g1 node op2 rest
          | .error msg => (Except.error (.GraphBuildError msg) :
              TranslateResult (Node × QueryGraph))) = .ok (op', g') := h
        cases hf : f op [SelectionResult.new (selection.selections.map
            (fun field => (field, PrismaValue.Placeholder (g1.edge_source e) .Any)))] with
        | error msg => rw [hf] at h'; cases h'
        | ok op2 =>
          rw [hf] at h'
          exact evolvesT_trans hev1 (ih g1 node op2 op' g' hpre1 h')
      | DataDependency => cases h
      | Then => cases h
      | Else => cases h

/-! ### Inversion of `process_child_with_dependency` -/

theorem process_child_with_dependency_inversion (rec : Rec) (g : QueryGraph) (edge : EdgeRef)
    (child : NodeRef) (e : Expression) (g' : QueryGraph)
    (h : NodeTranslator.process_child_with_dependency rec g edge child = .ok (e, g')) :
    ∃ expr, rec g child (g.incoming_edges child) = .ok (expr, g') ∧
      (e = expr ∨ ∃ fld, e = .Let [Binding.new (g.edge_source edge)
        (.MapField fld (.Get (g.edge_source edge)))] expr) := by
  unfold NodeTranslator.process_child_with_dependency at h
  dsimp only at h
  have plain : ∀ (hm : (match rec g child (g.incoming_edges child) with
      | .error e => (Except.error e : TranslateResult (Expression × QueryGraph))
      | .ok (expr, graph) => Except.ok (expr, graph)) = Except.ok (e, g')),
      ∃ expr, rec g child (g.incoming_edges child) = .ok (expr, g') ∧
        (e = expr ∨ ∃ fld, e = .Let [Binding.new (g.edge_source edge)
          (.MapField fld (.Get (g.edge_source edge)))] expr) := by
    intro hm
    cases hrec : rec g child (g.incoming_edges child) with
    | error err => rw [hrec] at hm; cases hm
    | ok p =>
      obtain ⟨expr, g2⟩ := p
      rw [hrec] at hm
      obtain ⟨he, hg⟩ := Prod.mk.inj (Except.ok.inj hm)
      subst hg
      subst he
      exact ⟨expr, rfl, Or.inl rfl⟩
  have wrapped : ∀ (fld : String) (hm : (match rec g child (g.incoming_edges child) with
      | .error e => (Except.error e : TranslateResult (Expression × QueryGraph))
      | .ok (expr, graph) =>
          Except.ok (.Let [Binding.new (g.edge_source edge)
            (.MapField fld (.Get (g.edge_source edge)))] expr, graph)) = Except.ok (e, g')),
      ∃ expr, rec g child (g.incoming_edges child) = .ok (expr, g') ∧
        (e = expr ∨ ∃ fld2, e = .Let [Binding.new (g.edge_source edge)
          (.MapField fld2 (.Get (g.edge_source edge)))] expr) := by
    intro fld hm
    cases hrec : rec g child (g.incoming_edges child) with
    | error err => rw [hrec] at hm; cases hm
    | ok p =>
      obtain ⟨expr, g2⟩ := p
      rw [hrec] at hm
      obtain ⟨he, hg⟩ := Prod.mk.inj (Except.ok.inj hm)
      subst hg
      subst he
      exact ⟨expr, rfl, Or.inr ⟨fld, rfl⟩⟩
  cases hec : g.edge_content edge with
  | none =>
    rw [hec] at h
    exact plain h
  | some dep =>
    rw [hec] at h
    cases dep with
    | ExecutionOrder => exact plain h
    | DataDependency => exact plain h
    | Then => exact plain h
    | Else => exact plain h
    | ProjectedDataDependency selection f =>
      cases selection with
      | nil => cases h
      | cons fld tl =>
        cases tl with
        | nil => exact wrapped fld.db_name h
        | cons fld2 tl2 => cases h

/-- The evolution contract of the recursive entry: assuming the incoming
edges all point at the node being translated, a successful call evolves the
graph. -/
def RecEvolves (rec : Rec) : Prop :=
  ∀ (g : QueryGraph) (n : NodeRef) (pes : List EdgeRef) (e : Expression) (g' : QueryGraph),
    (∀ i ∈ pes, g.edge_target i = n) → rec g n pes = .ok (e, g') → EvolvesT g g'

theorem incoming_edges_target (g : QueryGraph) (n : NodeRef) :
    ∀ i ∈ g.incoming_edges n, g.edge_target i = n := by
  intro i hi
  unfold QueryGraph.incoming_edges at hi
  rw [List.mem_filter] at hi
  exact eq_of_beq hi.2

theorem evolvesT_process_child_with_dependency {rec : Rec} (hrec : RecEvolves rec)
    {g : QueryGraph} {edge : EdgeRef} {child : NodeRef} {e : Expression} {g' : QueryGraph}
    (h : NodeTranslator.process_child_with_dependency rec g edge child = .ok (e, g')) :
    EvolvesT g g' := by
  obtain ⟨expr, hcall, hshape⟩ := process_child_with_dependency_inversion rec g edge child e g' h
  exact hrec g child (g.incoming_edges child) expr g' (incoming_edges_target g child) hcall

theorem evolvesT_process_child_list {rec : Rec} (hrec : RecEvolves rec) :
    ∀ (pairs : List (EdgeRef × NodeRef)) (g : QueryGraph) (es : List Expression) (g' : QueryGraph),
      NodeTranslator.process_child_list rec g pairs = .ok (es, g') → EvolvesT g g' := by
  intro pairs
  induction pairs with
  | nil =>
    intro g es g' h
    unfold NodeTranslator.process_child_list at h
    cases h
    exact evolvesT_refl g
  | cons p rest ih =>
    intro g es g' h
    obtain ⟨edge, child⟩ := p
    unfold NodeTranslator.process_child_list at h
    cases h1 : NodeTranslator.process_child_with_dependency rec g edge child with
    | error err => rw [h1] at h; cases h
    | ok q =>
      obtain ⟨e1, g1⟩ := q
      rw [h1] at h
      have h' : (match NodeTranslator.process_child_list rec g1 rest with
        | .error e => (Except.error e : TranslateResult (List Expression × QueryGraph))
        | .ok (exprs, graph) => .ok (e1 :: exprs, graph)) = .ok (es, g') := h
      cases h2 : NodeTranslator.process_child_list rec g1 rest with
      | error err => rw [h2] at h'; cases h'
      | ok q2 =>
        obtain ⟨es2, g2⟩ := q2
        rw [h2] at h'
        cases h'
        exact evolvesT_trans (evolvesT_process_child_with_dependency hrec h1) (ih g1 es2 g' h2)

theorem evolvesT_collect_result_bindings {rec : Rec} (hrec : RecEvolves rec) :
    ∀ (pairs : List (EdgeRef × NodeRef)) (g : QueryGraph) (bs : List Binding) (g' : QueryGraph),
      NodeTranslator.collect_result_bindings rec g pairs = .ok (bs, g') → EvolvesT g g' := by
  intro pairs
  induction pairs with
  | nil =>
    intro g bs g' h
    unfold NodeTranslator.collect_result_bindings at h
    cases h
    exact evolvesT_refl g
  | cons p rest ih =>
    intro g bs g' h
    obtain ⟨edge, child⟩ := p
    unfold NodeTranslator.collect_result_bindings at h
    cases h1 : NodeTranslator.process_child_with_dependency rec g edge child with
    | error err => rw [h1] at h; cases h
    | ok q =>
      obtain ⟨e1, g1⟩ := q
      rw [h1] at h
      have h' : (match NodeTranslator.collect_result_bindings rec g1 rest with
        | .error e => (Except.error e : TranslateResult (List Binding × QueryGraph))
        | .ok (bs2, graph) => .ok (Binding.new child e1 :: bs2, graph)) = .ok (bs, g') := h
      cases h2 : NodeTranslator.collect_result_bindings rec g1 rest with
      | error err => rw [h2] at h'; cases h'
      | ok q2 =>
        obtain ⟨bs2, g2⟩ := q2
        rw [h2] at h'
        cases h'
        exact evolvesT_trans (evolvesT_process_child_with_dependency hrec h1) (ih g1 bs2 g' h2)

theorem evolvesT_fold_result_scopes {rec : Rec} (hrec : RecEvolves rec)
    {g : QueryGraph} {pairs : List (EdgeRef × NodeRef)} {e : Expression} {g' : QueryGraph}
    (h : NodeTranslator.fold_result_scopes rec g pairs = .ok (e, g')) : EvolvesT g g' := by
  unfold NodeTranslator.fold_result_scopes at h
  cases hc : NodeTranslator.collect_result_bindings rec g pairs with
  | error err => rw [hc] at h; cases h
  | ok q =>
    obtain ⟨bindings, g1⟩ := q
    rw [hc] at h
    have hev := evolvesT_collect_result_bindings hrec pairs g bindings g1 hc
    have h' : (if g1.result_nodes.length == 1 then
        match (bindings.map Binding.name).getLast? with
        | some last => Except.ok ((.Let bindings (.Get last) : Expression), g1)
        | none => (Except.error (.Panic "no binding for result node") :
            TranslateResult (Expression × QueryGraph))
      else Except.ok (.Let bindings (.GetFirstNonEmpty (bindings.map Binding.name)), g1)) =
        Except.ok (e, g') := h
    by_cases hone : (g1.result_nodes.length == 1) = true
    · rw [if_pos hone] at h'
      cases hlast : (bindings.map Binding.name).getLast? with
      | none => rw [hlast] at h'; cases h'
      | some last =>
        rw [hlast] at h'
        cases h'
        exact hev
    · rw [if_neg hone] at h'
      cases h'
      exact hev

theorem evolvesT_process_children {rec : Rec} (hrec : RecEvolves rec)
    {g : QueryGraph} {node : NodeRef} {es : List Expression} {g' : QueryGraph}
    (h : NodeTranslator.process_children rec g node = .ok (es, g')) : EvolvesT g g' := by
  unfold NodeTranslator.process_children at h
  dsimp only at h
  cases h1 : NodeTranslator.process_child_list rec g
      (NodeTranslator.partition_child_pairs g (g.direct_child_pairs node)).2 with
  | error err => rw [h1] at h; cases h
  | ok q =>
    obtain ⟨exprs, g1⟩ := q
    rw [h1] at h
    have hev1 := evolvesT_process_child_list hrec _ g exprs g1 h1
    have h' : (if (NodeTranslator.partition_child_pairs g (g.direct_child_pairs node)).1.isEmpty
        then Except.ok ((exprs : List Expression), g1)
        else match NodeTranslator.fold_result_scopes rec g1
            (NodeTranslator.partition_child_pairs g (g.direct_child_pairs node)).1 with
          | .error e => (Except.error e : TranslateResult (List Expression × QueryGraph))
          | .ok (result_exp, graph) => .ok (exprs ++ [result_exp], graph)) =
        Except.ok (es, g') := h
    by_cases hemp : ((NodeTranslator.partition_child_pairs g (g.direct_child_pairs node)).1.isEmpty) = true
    · rw [if_pos hemp] at h'
      cases h'
      exact hev1
    · rw [if_neg hemp] at h'
      cases h2 : NodeTranslator.fold_result_scopes rec g1
          (NodeTranslator.partition_child_pairs g (g.direct_child_pairs node)).1 with
      | error err => rw [h2] at h'; cases h'
      | ok q2 =>
        obtain ⟨re, g2⟩ := q2
        rw [h2] at h'
        cases h'
        exact evolvesT_trans hev1 (evolvesT_fold_result_scopes hrec h2)

theorem evolvesT_translate_query {rec : Rec} (hrec : RecEvolves rec) {b : QueryBuilder}
    {g : QueryGraph} {node : NodeRef} {pes : List EdgeRef} {e : Expression} {g' : QueryGraph}
    (hpes : ∀ i ∈ pes, g.edge_target i = node)
    (h : NodeTranslator.translate_query rec b g node pes = .ok (e, g')) : EvolvesT g g' := by
  obtain ⟨children, gc, op, g2, op2, g3, q, db, hstep, hpl, happ, hq, hlow, hg, hshape⟩ :=
    translate_query_inversion rec b g node pes e g' h
  subst hg
  have ev1 : EvolvesT g (g.mark_visited node) := evolvesT_mark_visited g node
  have ev2 : EvolvesT (g.mark_visited node) gc := by
    rcases hstep with ⟨hres, hch, hgc⟩ | ⟨hres, hpc⟩
    · rw [hgc]
      exact evolvesT_refl _
    · exact evolvesT_process_children hrec hpc
  have ev3 : EvolvesT gc g2 := evolvesT_pluck_node hpl
  have evTo2 : EvolvesT g g2 := evolvesT_trans ev1 (evolvesT_trans ev2 ev3)
  have hpes2 : ∀ i ∈ pes, g2.edge_target i = node := by
    intro i hi
    rw [evTo2.1.target_eq i]
    exact hpes i hi
  exact evolvesT_trans evTo2 (evolvesT_apply_parent_edges pes g2 node op op2 g' hpes2 happ)

theorem recEvolves_translate (b : QueryBuilder) :
    ∀ fuel, RecEvolves (NodeTranslator.translate b fuel) := by
  intro fuel
  induction fuel with
  | zero =>
    intro g n pes e g' hpre h
    unfold NodeTranslator.translate at h
    cases h
  | succ fuel ih =>
    intro g n pes e g' hpre h
    unfold NodeTranslator.translate at h
    cases hnc : g.node_content n with
    | none => rw [hnc] at h; cases h
    | some nd =>
      rw [hnc] at h
      cases nd with
      | Query q => exact evolvesT_translate_query ih hpre h
      | Empty =>
        have h' : Except.ok ((Expression.Seq [] : Expression), g) = Except.ok (e, g') := h
        cases h'
        exact evolvesT_refl g
      | Flow => cases h

theorem evolvesT_translate_roots (b : QueryBuilder) (fuel : Nat) :
    ∀ (roots : List NodeRef) (g : QueryGraph) (es : List Expression) (g' : QueryGraph),
      Translate.translate_roots b fuel g roots = .ok (es, g') → EvolvesT g g' := by
  intro roots
  induction roots with
  | nil =>
    intro g es g' h
    unfold Translate.translate_roots at h
    cases h
    exact evolvesT_refl g
  | cons r rest ih =>
    intro g es g' h
    unfold Translate.translate_roots at h
    cases h1 : NodeTranslator.translate b fuel g r [] with
    | error err => rw [h1] at h; cases h
    | ok q =>
      obtain ⟨e1, g1⟩ := q
      rw [h1] at h
      have h' : (match Translate.translate_roots b fuel g1 rest with
        | .error e => (Except.error e : TranslateResult (List Expression × QueryGraph))
        | .ok (exprs, graph) => .ok (e1 :: exprs, graph)) = .ok (es, g') := h
      cases h2 : Translate.translate_roots b fuel g1 rest with
      | error err => rw [h2] at h'; cases h'
      | ok q2 =>
        obtain ⟨es2, g2⟩ := q2
        rw [h2] at h'
        cases h'
        have hev1 : EvolvesT g g1 :=
          recEvolves_translate b fuel g r [] e1 g1 (by intro i hi; cases hi) h1
        exact evolvesT_trans hev1 (ih g1 es2 g' h2)

theorem evolvesT_translate_graph {b : QueryBuilder} {fuel : Nat} {g : QueryGraph}
    {e : Expression} {g' : QueryGraph}
    (h : Translate.translate_graph b fuel g = .ok (e, g')) : EvolvesT g g' := by
  unfold Translate.translate_graph at h
  cases h1 : Translate.translate_roots b fuel g g.root_nodes with
  | error err => rw [h1] at h; cases h
  | ok q =>
    obtain ⟨es, g1⟩ := q
    rw [h1] at h
    cases h
    exact evolvesT_translate_roots b fuel g.root_nodes g es g' h1

/-! ### C2: shape of the result fold -/

theorem collect_result_bindings_names (rec : Rec) :
    ∀ (pairs : List (EdgeRef × NodeRef)) (g : QueryGraph) (bs : List Binding) (g' : QueryGraph),
      NodeTranslator.collect_result_bindings rec g pairs = .ok (bs, g') →
      bs.map Binding.name = pairs.map Prod.snd := by
  intro pairs
  induction pairs with
  | nil =>
    intro g bs g' h
    unfold NodeTranslator.collect_result_bindings at h
    cases h
    rfl
  | cons p rest ih =>
    intro g bs g' h
    obtain ⟨edge, child⟩ := p
    unfold NodeTranslator.collect_result_bindings at h
    cases h1 : NodeTranslator.process_child_with_dependency rec g edge child with
    | error err => rw [h1] at h; cases h
    | ok q =>
      obtain ⟨e1, g1⟩ := q
      rw [h1] at h
      have h' : (match NodeTranslator.collect_result_bindings rec g1 rest with
        | .error e => (Except.error e : TranslateResult (List Binding × QueryGraph))
        | .ok (bs2, graph) => .ok (Binding.new child e1 :: bs2, graph)) = .ok (bs, g') := h
      cases h2 : NodeTranslator.collect_result_bindings rec g1 rest with
      | error err => rw [h2] at h'; cases h'
      | ok q2 =>
        obtain ⟨bs2, g2⟩ := q2
        rw [h2] at h'
        cases h'
        have := ih g1 bs2 g' h2
        simp [Binding.name, Binding.new, this]

/-- C2: a non-empty list of result (edge, child) pairs folds into a `Let`
with one binding per pair, named by the child node identifiers in order;
the body is `Get` of the last binding's name when the graph has exactly one
overall result node and `GetFirstNonEmpty` over all the binding names in
order otherwise (in particular whenever it has more than one). -/
theorem fold_result_scopes_shape (b : QueryBuilder) (fuel : Nat) (g : QueryGraph)
    (pairs : List (EdgeRef × NodeRef)) (e : Expression) (g' : QueryGraph)
    (hne : pairs ≠ [])
    (h : NodeTranslator.fold_result_scopes (NodeTranslator.translate b fuel) g pairs =
      .ok (e, g')) :
    ∃ (bindings : List Binding) (last : NodeRef),
      bindings.map Binding.name = pairs.map Prod.snd ∧
      (pairs.map Prod.snd).getLast? = some last ∧
      ((g.result_nodes.length = 1 ∧ e = .Let bindings (.Get last)) ∨
       (g.result_nodes.length ≠ 1 ∧
         e = .Let bindings (.GetFirstNonEmpty (bindings.map Binding.name)))) := by
  unfold NodeTranslator.fold_result_scopes at h
  cases hc : NodeTranslator.collect_result_bindings (NodeTranslator.translate b fuel) g pairs with
  | error err => rw [hc] at h; cases h
  | ok q =>
    obtain ⟨bindings, g1⟩ := q
    rw [hc] at h
    have hnames : bindings.map Binding.name = pairs.map Prod.snd :=
      collect_result_bindings_names _ pairs g bindings g1 hc
    have hres : g1.result_nodes = g.result_nodes := by
      have hev := evolvesT_collect_result_bindings (recEvolves_translate b fuel) pairs g
        bindings g1 hc
      exact hev.1.results_eq
    have h' : (if g1.result_nodes.length == 1 then
        match (bindings.map Binding.name).getLast? with
        | some last => Except.ok ((.Let bindings (.Get last) : Expression), g1)
        | none => (Except.error (.Panic "no binding for result node") :
            TranslateResult (Expression × QueryGraph))
      else Except.ok (.Let bindings (.GetFirstNonEmpty (bindings.map Binding.name)), g1)) =
        Except.ok (e, g') := h
    by_cases hone : (g1.result_nodes.length == 1) = true
    · rw [if_pos hone] at h'
      cases hlast : (bindings.map Binding.name).getLast? with
      | none =>
        rw [hlast] at h'
        cases h'
      | some last =>
        rw [hlast] at h'
        cases h'
        refine ⟨bindings, last, hnames, by rw [← hnames]; exact hlast, Or.inl ⟨?_, rfl⟩⟩
        rw [← hres]
        simpa using hone
    · rw [if_neg hone] at h'
      cases h'
      have hlast : ∃ last, (bindings.map Binding.name).getLast? = some last := by
        cases hl : (bindings.map Binding.name).getLast? with
        | none =>
          rw [List.getLast?_eq_none_iff] at hl
          rw [hnames] at hl
          exact absurd (List.map_eq_nil_iff.mp hl) hne
        | some last => exact ⟨last, rfl⟩
      obtain ⟨last, hlast⟩ := hlast
      refine ⟨bindings, last, hnames, by rw [← hnames]; exact hlast, Or.inr ⟨?_, rfl⟩⟩
      rw [← hres]
      simpa using hone

/-- Witness for C2: two result pairs on a graph with two overall result
nodes fold to `GetFirstNonEmpty` over both binding names in order. -/
theorem fold_result_scopes_shape_witness :
    ∃ (bindings : List Binding) (last : NodeRef),
      bindings.map Binding.name =
        ([(0, "A"), (1, "B")] : List (EdgeRef × NodeRef)).map Prod.snd ∧
      (([(0, "A"), (1, "B")] : List (EdgeRef × NodeRef)).map Prod.snd).getLast? = some last ∧
      ((gTwoResults.result_nodes.length = 1 ∧
          (Expression.Let [Binding.new "A" (.Query ⟨1⟩), Binding.new "B" (.Query ⟨2⟩)]
            (.GetFirstNonEmpty ["A", "B"])) = .Let bindings (.Get last)) ∨
       (gTwoResults.result_nodes.length ≠ 1 ∧
          (Expression.Let [Binding.new "A" (.Query ⟨1⟩), Binding.new "B" (.Query ⟨2⟩)]
            (.GetFirstNonEmpty ["A", "B"])) =
            .Let bindings (.GetFirstNonEmpty (bindings.map Binding.name)))) :=
  fold_result_scopes_shape builder0 5 gTwoResults [(0, "A"), (1, "B")] _ _ (by simp) rfl

/-! ### C10: a plucked query node cannot be translated again -/

theorem apply_parent_edges_contents :
    ∀ (pes : List EdgeRef) (g : QueryGraph) (node : NodeRef) (op op' : Node) (g' : QueryGraph),
      NodeTranslator.apply_parent_edges g node op pes = .ok (op', g') →
      g'.contents = g.contents := by
  intro pes
  induction pes with
  | nil =>
    intro g node op op' g' h
    unfold NodeTranslator.apply_parent_edges at h
    cases h
    rfl
  | cons e rest ih =>
    intro g node op op' g' h
    unfold NodeTranslator.apply_parent_edges at h
    cases hpl : g.pluck_edge e node with
    | error err => rw [hpl] at h; cases h
    | ok p =>
      obtain ⟨dep, g1⟩ := p
      rw [hpl] at h
      have hc1 : g1.contents = g.contents := by
        unfold QueryGraph.pluck_edge at hpl
        cases hec : g.edge_content e with
        | none => rw [hec] at hpl; cases hpl
        | some d => rw [hec] at hpl; cases hpl; rfl
      cases dep with
      | ExecutionOrder =>
        have h' : NodeTranslator.apply_parent_edges g1 node op rest = .ok (op', g') := h
        exact (ih g1 node op op' g' h').trans hc1
      | ProjectedDataDependency selection f =>
        have h' : (match f op [SelectionResult.new (selection.selections.map
            (fun field => (field, PrismaValue.Placeholder (g1.edge_source e) .Any)))] with
          | .ok op2 => NodeTranslator.apply_parent_edges g1 node op2 rest
          | .error msg => (Except.error (.GraphBuildError msg) :
              TranslateResult (Node × QueryGraph))) = .ok (op', g') := h
        cases hf : f op [SelectionResult.new (selection.selections.map
            (fun field => (field, PrismaValue.Placeholder (g1.edge_source e) .Any)))] with
        | error msg => rw [hf] at h'; cases h'
        | ok op2 =>
          rw [hf] at h'
          exact (ih g1 node op2 op' g' h').trans hc1
      | DataDependency => cases h
      | Then => cases h
      | Else => cases h

theorem pluck_node_clears {g : QueryGraph} {node : NodeRef} {op : Node} {g2 : QueryGraph}
    (h : g.pluck_node node = .ok (op, g2)) : g2.node_content node = none := by
  unfold QueryGraph.pluck_node at h
  cases hnc : g.node_content node with
  | none => rw [hnc] at h; cases h
  | some m =>
    rw [hnc] at h
    cases h
    have := QueryGraph.with_node_plucked_node_content g node node
    simp at this
    exact this

theorem translate_query_clears_node {rec : Rec} {b : QueryBuilder} {g : QueryGraph}
    {node : NodeRef} {pes : List EdgeRef} {e : Expression} {g' : QueryGraph}
    (h : NodeTranslator.translate_query rec b g node pes = .ok (e, g')) :
    g'.node_content node = none := by
  obtain ⟨children, gc, op, g2, op2, g3, q, db, hstep, hpl, happ, hq, hlow, hg, hshape⟩ :=
    translate_query_inversion rec b g node pes e g' h
  subst hg
  have h2 : g2.node_content node = none := pluck_node_clears hpl
  have hc : g'.contents = g2.contents := apply_parent_edges_contents pes g2 node op op2 g' happ
  unfold QueryGraph.node_content at h2 ⊢
  rw [hc]
  exact h2

/-- C10: once a node holding a pending operation has been successfully
translated (its content plucked), a second invocation of the node translator
on it fails with the empty-node error naming that node — and it does so for
any state of the visited markers, showing that the content-presence check,
not the (written but never read) visited marker, enforces the
no-retranslation guard. -/
theorem retranslation_fails (b : QueryBuilder) (fuel : Nat) (g : QueryGraph) (node : NodeRef)
    (pes : List EdgeRef) (q : Query) (e : Expression) (g' : QueryGraph)
    (hq : g.node_content node = some (.Query q))
    (h : NodeTranslator.translate b (fuel + 1) g node pes = .ok (e, g')) :
    (∀ (fuel2 : Nat) (pes2 : List EdgeRef),
       NodeTranslator.translate b (fuel2 + 1) g' node pes2 = .error (.NodeContentEmpty node)) ∧
    (∀ (v : List NodeRef) (fuel2 : Nat) (pes2 : List EdgeRef),
       NodeTranslator.translate b (fuel2 + 1) { g' with visited := v } node pes2 =
         .error (.NodeContentEmpty node)) := by
  have hclear : g'.node_content node = none := by
    unfold NodeTranslator.translate at h
    rw [hq] at h
    exact translate_query_clears_node h
  constructor
  · intro fuel2 pes2
    simp [NodeTranslator.translate, hclear]
  · intro v fuel2 pes2
    have hclear2 : ({ g' with visited := v } : QueryGraph).node_content node = none := hclear
    simp [NodeTranslator.translate, hclear2]

/-- A single isolated query node. -/
def gOneNode : QueryGraph :=
  { contents := [("root", some (.Query ⟨0⟩))],
    edges := [], results := [], visited := [], trace := [] }

/-- The state of `gOneNode` after its root has been translated. -/
def gOneNodeAfter : QueryGraph :=
  { contents := [("root", none)],
    edges := [], results := [], visited := ["root"], trace := [.node "root"] }

/-- Witness for C10: translating the single query node once succeeds,
plucking it; a second attempt fails with the empty-node error naming it,
with the original visited markers and with them erased alike. -/
theorem retranslation_fails_witness :
    gOneNode.node_content "root" = some (.Query ⟨0⟩) ∧
    NodeTranslator.translate builder0 5 gOneNode "root" [] = .ok (.Query ⟨0⟩, gOneNodeAfter) ∧
    NodeTranslator.translate builder0 3 gOneNodeAfter "root" [] =
      .error (.NodeContentEmpty "root") ∧
    NodeTranslator.translate builder0 3 { gOneNodeAfter with visited := [] } "root" [] =
      .error (.NodeContentEmpty "root") :=
  ⟨rfl, rfl,
   (retranslation_fails builder0 4 gOneNode "root" [] ⟨0⟩ _ _ rfl rfl).1 2 [],
   (retranslation_fails builder0 4 gOneNode "root" [] ⟨0⟩ _ _ rfl rfl).2 [] 2 []⟩

/-! ### C3: single consumption -/

/-- C3 (amended): during one call to the top-level translation, every node's
content is plucked at most once, every edge's dependency descriptor is
plucked at most once, and every edge pluck is performed by the translation
of the edge's target node.  (The original claim's "every edge is plucked
exactly once" fails: edges below a result node are never consumed, see the
counterexample.) -/
theorem single_consumption (b : QueryBuilder) (fuel : Nat) (g : QueryGraph)
    (e : Expression) (g' : QueryGraph) (h0 : g.trace = [])
    (h : Translate.translate_graph b fuel g = .ok (e, g')) :
    (∀ id, tr_node_count id g'.trace ≤ 1) ∧
    (∀ i, tr_edge_count i g'.trace ≤ 1) ∧
    (∀ i n, PluckEvent.edge i n ∈ g'.trace → g.edge_target i = n) := by
  have hev := evolvesT_translate_graph h
  have hδ : trace_delta g g' = g'.trace := by
    unfold trace_delta
    rw [h0]
    simp
  refine ⟨?_, ?_, ?_⟩
  · intro id
    rcases hev.1.node_acc id with ⟨c, _⟩ | ⟨c, _, _⟩ <;> rw [hδ] at c <;> omega
  · intro i
    rcases hev.1.edge_acc i with ⟨c, _⟩ | ⟨c, _, _⟩ <;> rw [hδ] at c <;> omega
  · intro i n hm
    refine hev.2 i n ?_
    rw [hδ]
    exact hm

/-- The state of `gResultChild` after translation: only `A` was consumed. -/
def gResultChildAfter : QueryGraph :=
  { contents := [("A", none), ("B", some (.Query ⟨1⟩))],
    edges := [⟨"A", "B", some .ExecutionOrder⟩],
    results := ["A"],
    visited := ["A"], trace := [.node "A"] }

/-- Counterexample for C3 as stated: on the finite acyclic graph whose root
`A` is a result node with child `B`, the top-level translation succeeds while
the edge `A -> B` is never plucked (no edge event in the trace, its
descriptor still present) and `B` is never consumed. -/
theorem single_consumption_counterexample :
    Translate.translate_graph builder0 9 gResultChild =
      .ok (.Seq [.Query ⟨0⟩], gResultChildAfter) ∧
    gResultChild.edges.length = 1 ∧
    tr_edge_count 0 gResultChildAfter.trace = 0 ∧
    gResultChildAfter.edge_content 0 = some .ExecutionOrder ∧
    gResultChildAfter.node_content "B" = some (.Query ⟨1⟩) :=
  ⟨rfl, rfl, rfl, rfl, rfl⟩

/-- Witness for the amended C3 at a concrete translation. -/
theorem single_consumption_witness :
    gProjection.trace = [] ∧
    (∀ id, tr_node_count id ([.node "A", .edge 0 "A", .node "root"] : List PluckEvent) ≤ 1) ∧
    (∀ i, tr_edge_count i ([.node "A", .edge 0 "A", .node "root"] : List PluckEvent) ≤ 1) ∧
    (∀ i n, PluckEvent.edge i n ∈ ([.node "A", .edge 0 "A", .node "root"] : List PluckEvent) →
      gProjection.edge_target i = n) := by
  have h := single_consumption builder0 9 gProjection
    (.Seq [.Let [Binding.new "root" (.Query ⟨0⟩)]
      (.Seq [.Let [Binding.new "root" (.MapField "id" (.Get "root"))] (.Query ⟨1⟩)])])
    { contents := [("root", none), ("A", none)],
      edges := [⟨"root", "A", none⟩],
      results := [], visited := ["root", "A"],
      trace := [.node "A", .edge 0 "A", .node "root"] }
    rfl rfl
  exact ⟨rfl, h.1, h.2.1, h.2.2⟩

/-! ### C1: the order of the child partition -/

/-- The indices of the elements satisfying `p`, in increasing order
(generalizing `result_positions` over the tested predicate). -/
def idx_positions {α : Type} (p : α → Bool) (l : List α) : List Nat :=
  l.enum.filterMap (fun q => if p q.2 then some q.1 else none)

theorem result_positions_eq_idx (g : QueryGraph) (l : List (EdgeRef × NodeRef)) :
    NodeTranslator.result_positions g l =
      idx_positions (fun pr => g.subgraph_contains_result pr.2) l := rfl

theorem idx_positions_concat {α : Type} (p : α → Bool) (l : List α) (a : α) :
    idx_positions p (l ++ [a]) =
      idx_positions p l ++ (if p a then [l.length] else []) := by
  unfold idx_positions
  rw [List.enum_append, List.filterMap_append]
  congr 1
  cases hpa : p a <;> simp [List.enumFrom, hpa]

theorem idx_positions_lt {α : Type} (p : α → Bool) :
    ∀ (l : List α) (i : Nat), i ∈ idx_positions p l → i < l.length := by
  intro l
  induction l using List.reverseRecOn with
  | nil => intro i hi; simp [idx_positions] at hi
  | append_singleton l a ih =>
    intro i hi
    rw [idx_positions_concat] at hi
    rcases List.mem_append.mp hi with hm | hm
    · have := ih i hm
      simp
      omega
    · cases hpa : p a
      · rw [hpa] at hm
        simp at hm
      · rw [hpa] at hm
        simp at hm
        subst hm
        simp

theorem idx_positions_pairwise {α : Type} (p : α → Bool) :
    ∀ (l : List α), List.Pairwise (· < ·) (idx_positions p l) := by
  intro l
  induction l using List.reverseRecOn with
  | nil => simp [idx_positions]
  | append_singleton l a ih =>
    rw [idx_positions_concat, List.pairwise_append]
    refine ⟨ih, ?_, ?_⟩
    · cases hpa : p a <;> simp
    · intro x hx y hy
      have hxl := idx_positions_lt p l x hx
      cases hpa : p a
      · rw [hpa] at hy
        simp at hy
      · rw [hpa] at hy
        simp at hy
        subst hy
        exact hxl

theorem remove_many_concat {α : Type} (a : α) :
    ∀ (ws : List Nat) (l : List α), (∀ i ∈ ws, i < l.length) →
      List.Pairwise (· > ·) ws →
      NodeTranslator.remove_many (l ++ [a]) ws =
        ((NodeTranslator.remove_many l ws).1, (NodeTranslator.remove_many l ws).2 ++ [a]) := by
  intro ws
  induction ws with
  | nil => intro l hb hp; simp [NodeTranslator.remove_many]
  | cons i is ih =>
    intro l hb hp
    have hi : i < l.length := hb i (by simp)
    have hb2 : ∀ j ∈ is, j < (l.eraseIdx i).length := by
      intro j hj
      have hji : i > j := (List.pairwise_cons.mp hp).1 j hj
      rw [List.length_eraseIdx, if_pos hi]
      omega
    have hp2 := (List.pairwise_cons.mp hp).2
    unfold NodeTranslator.remove_many
    rw [List.eraseIdx_append_of_lt_length hi, List.getElem?_append, if_pos hi,
      ih (l.eraseIdx i) hb2 hp2]

theorem remove_many_idx_positions {α : Type} (p : α → Bool) :
    ∀ (l : List α),
      NodeTranslator.remove_many l ((idx_positions p l).reverse) =
        ((l.filter p).reverse, l.filter (fun x => !p x)) := by
  intro l
  induction l using List.reverseRecOn with
  | nil => simp [idx_positions, NodeTranslator.remove_many]
  | append_singleton l a ih =>
    rw [idx_positions_concat]
    cases hpa : p a
    · have hred : (if false = true then [l.length] else []) = ([] : List Nat) := rfl
      rw [hred]
      simp only [List.append_nil]
      rw [remove_many_concat a _ _
        (fun i hi => idx_positions_lt p l i (List.mem_reverse.mp hi))
        (by rw [List.pairwise_reverse]; exact idx_positions_pairwise p l)]
      rw [ih]
      simp [List.filter_append, hpa]
    · have hred : (if true = true then [l.length] else []) = [l.length] := rfl
      rw [hred]
      simp only [List.reverse_append, List.reverse_cons, List.reverse_nil, List.nil_append,
        List.singleton_append]
      unfold NodeTranslator.remove_many
      rw [List.getElem?_concat_length, List.eraseIdx_append_of_length_le (Nat.le_refl _)]
      simp only [Nat.sub_self, List.eraseIdx_cons_zero, List.append_nil]
      rw [ih]
      simp [List.filter_append, hpa]

theorem partition_child_pairs_eq (g : QueryGraph) (l : List (EdgeRef × NodeRef)) :
    NodeTranslator.partition_child_pairs g l =
      ((l.filter (fun pr => g.subgraph_contains_result pr.2)).reverse,
       l.filter (fun pr => !g.subgraph_contains_result pr.2)) := by
  unfold NodeTranslator.partition_child_pairs
  dsimp only
  rw [result_positions_eq_idx]
  have hsorted : List.Sorted (· ≤ ·)
      (idx_positions (fun pr => g.subgraph_contains_result pr.2) l) :=
    (idx_positions_pairwise _ l).imp (fun h => Nat.le_of_lt h)
  rw [hsorted.insertionSort_eq]
  exact remove_many_idx_positions _ l

theorem process_children_inversion (rec : Rec) (g : QueryGraph) (node : NodeRef)
    (es : List Expression) (g' : QueryGraph)
    (h : NodeTranslator.process_children rec g node = .ok (es, g')) :
    ∃ (exprs : List Expression) (g1 : QueryGraph),
      NodeTranslator.process_child_list rec g
        (NodeTranslator.partition_child_pairs g (g.direct_child_pairs node)).2 =
          .ok (exprs, g1) ∧
      (((NodeTranslator.partition_child_pairs g (g.direct_child_pairs node)).1 = [] ∧
          es = exprs ∧ g' = g1) ∨
       (∃ (re : Expression) (g2 : QueryGraph),
          NodeTranslator.fold_result_scopes rec g1
            (NodeTranslator.partition_child_pairs g (g.direct_child_pairs node)).1 =
              .ok (re, g2) ∧
          es = exprs ++ [re] ∧ g' = g2)) := by
  unfold NodeTranslator.process_children at h
  dsimp only at h
  cases h1 : NodeTranslator.process_child_list rec g
      (NodeTranslator.partition_child_pairs g (g.direct_child_pairs node)).2 with
  | error err => rw [h1] at h; cases h
  | ok q =>
    obtain ⟨exprs, g1⟩ := q
    rw [h1] at h
    have h' : (if (NodeTranslator.partition_child_pairs g (g.direct_child_pairs node)).1.isEmpty
        then Except.ok ((exprs : List Expression), g1)
        else match NodeTranslator.fold_result_scopes rec g1
            (NodeTranslator.partition_child_pairs g (g.direct_child_pairs node)).1 with
          | .error e => (Except.error e : TranslateResult (List Expression × QueryGraph))
          | .ok (result_exp, graph) => .ok (exprs ++ [result_exp], graph)) =
        Except.ok (es, g') := h
    by_cases hemp :
        ((NodeTranslator.partition_child_pairs g (g.direct_child_pairs node)).1.isEmpty) = true
    · rw [if_pos hemp] at h'
      cases h'
      exact ⟨es, g', rfl, Or.inl ⟨List.isEmpty_iff.mp hemp, rfl, rfl⟩⟩
    · rw [if_neg hemp] at h'
      cases h2 : NodeTranslator.fold_result_scopes rec g1
          (NodeTranslator.partition_child_pairs g (g.direct_child_pairs node)).1 with
      | error err => rw [h2] at h'; cases h'
      | ok q2 =>
        obtain ⟨re, g2⟩ := q2
        rw [h2] at h'
        cases h'
        exact ⟨exprs, g1, rfl, Or.inr ⟨re, g', h2, rfl, rfl⟩⟩

/-- C1 (amended): the direct children are partitioned so that the remaining
effect children keep their original relative order and are translated first,
and the result children are removed from the highest index downwards, which
leaves them in *reverse* original relative order in the single trailing
fold (the code performs no reordering after the removals). -/
theorem children_partition_order :
    (∀ (g : QueryGraph) (l : List (EdgeRef × NodeRef)),
       NodeTranslator.partition_child_pairs g l =
         ((l.filter (fun pr => g.subgraph_contains_result pr.2)).reverse,
          l.filter (fun pr => !g.subgraph_contains_result pr.2))) ∧
    (∀ (rec : Rec) (g : QueryGraph) (node : NodeRef) (es : List Expression) (g' : QueryGraph),
       NodeTranslator.process_children rec g node = .ok (es, g') →
       ∃ (exprs : List Expression) (g1 : QueryGraph),
         NodeTranslator.process_child_list rec g
           ((g.direct_child_pairs node).filter
             (fun pr => !g.subgraph_contains_result pr.2)) = .ok (exprs, g1) ∧
         ((((g.direct_child_pairs node).filter
             (fun pr => g.subgraph_contains_result pr.2)) = [] ∧ es = exprs ∧ g' = g1) ∨
          (∃ (re : Expression) (g2 : QueryGraph),
            NodeTranslator.fold_result_scopes rec g1
              (((g.direct_child_pairs node).filter
                (fun pr => g.subgraph_contains_result pr.2)).reverse) = .ok (re, g2) ∧
            es = exprs ++ [re] ∧ g' = g2))) := by
  constructor
  · exact partition_child_pairs_eq
  · intro rec g node es g' h
    obtain ⟨exprs, g1, h1, hrest⟩ := process_children_inversion rec g node es g' h
    rw [partition_child_pairs_eq] at h1 hrest
    refine ⟨exprs, g1, h1, ?_⟩
    rcases hrest with ⟨hnil, he, hg⟩ | ⟨re, g2, h2, he, hg⟩
    · exact Or.inl ⟨List.reverse_eq_nil_iff.mp hnil, he, hg⟩
    · exact Or.inr ⟨re, g2, h2, he, hg⟩

/-- Counterexample for C1 as stated: the root's result children appear as
direct children in the order `A`, `B`, but the trailing fold binds and
selects them in the order `B`, `A` — not their original relative order. -/
theorem children_partition_order_counterexample :
    (gTwoResults.direct_child_pairs "root").map Prod.snd = ["A", "B"] ∧
    Translate.translate builder0 10 gTwoResults =
      .ok (.Seq [.Let [Binding.new "root" (.Query ⟨0⟩)]
        (.Seq [.Let [Binding.new "B" (.Query ⟨2⟩), Binding.new "A" (.Query ⟨1⟩)]
          (.GetFirstNonEmpty ["B", "A"])])]) ∧
    (["B", "A"] : List String) ≠ ["A", "B"] :=
  ⟨rfl, rfl, by decide⟩

/-- The state of `gTwoResults` after `process_children` of its root: both
result children consumed, the root untouched. -/
def gTwoResultsChildren : QueryGraph :=
  { contents := [("root", some (.Query ⟨0⟩)), ("A", none), ("B", none)],
    edges := [⟨"root", "A", none⟩, ⟨"root", "B", none⟩],
    results := ["A", "B"],
    visited := ["B", "A"],
    trace := [.node "B", .edge 1 "B", .node "A", .edge 0 "A"] }

/-- Witness for the amended C1 at a concrete graph with two result
children. -/
theorem children_partition_order_witness :
    ∃ (exprs : List Expression) (g1 : QueryGraph),
      NodeTranslator.process_child_list (NodeTranslator.translate builder0 8) gTwoResults
        ((gTwoResults.direct_child_pairs "root").filter
          (fun pr => !gTwoResults.subgraph_contains_result pr.2)) = .ok (exprs, g1) ∧
      ((((gTwoResults.direct_child_pairs "root").filter
          (fun pr => gTwoResults.subgraph_contains_result pr.2)) = [] ∧
          ([.Let [Binding.new "B" (.Query ⟨2⟩), Binding.new "A" (.Query ⟨1⟩)]
            (.GetFirstNonEmpty ["B", "A"])] : List Expression) = exprs ∧ gTwoResultsChildren = g1) ∨
       (∃ (re : Expression) (g2 : QueryGraph),
          NodeTranslator.fold_result_scopes (NodeTranslator.translate builder0 8) g1
            (((gTwoResults.direct_child_pairs "root").filter
              (fun pr => gTwoResults.subgraph_contains_result pr.2)).reverse) = .ok (re, g2) ∧
          ([.Let [Binding.new "B" (.Query ⟨2⟩), Binding.new "A" (.Query ⟨1⟩)]
            (.GetFirstNonEmpty ["B", "A"])] : List Expression) = exprs ++ [re] ∧
          gTwoResultsChildren = g2)) :=
  children_partition_order.2 (NodeTranslator.translate builder0 8) gTwoResults "root"
    [.Let [Binding.new "B" (.Query ⟨2⟩), Binding.new "A" (.Query ⟨1⟩)]
      (.GetFirstNonEmpty ["B", "A"])] gTwoResultsChildren rfl

/-! ### C8: scoping correctness -/

mutual
/-- Scoping check: `env` is the list of names already bound and evaluated in
enclosing scopes.  A `Get` (and each name of a `GetFirstNonEmpty`) must
refer to such a name; `Let` evaluates its bindings in order, each seeing the
earlier ones, and its body sees them all. -/
def scoped_expr (env : List String) : Expression → Bool
  | .Seq es => scoped_exprs env es
  | .Let bs body => scoped_bindings env bs && scoped_expr (env ++ bs.map Prod.fst) body
  | .Get n => env.contains n
  | .GetFirstNonEmpty ns => ns.all (fun n => env.contains n)
  | .MapField _ records => scoped_expr env records
  | .Query _ => true

/-- Scoping check for a list of expressions evaluated in the same scope. -/
def scoped_exprs (env : List String) : List Expression → Bool
  | [] => true
  | e :: es => scoped_expr env e && scoped_exprs env es

/-- Scoping check for the bindings of a `Let`, evaluated in order. -/
def scoped_bindings (env : List String) : List (String × Expression) → Bool
  | [] => true
  | (n, e) :: bs => scoped_expr env e && scoped_bindings (env ++ [n]) bs
end

/-- The scoping contract of the recursive entry: a successful node
translation produces an expression with no free `Get` at all. -/
def RecScoped (rec : Rec) : Prop :=
  ∀ (g : QueryGraph) (n : NodeRef) (pes : List EdgeRef) (e : Expression) (g' : QueryGraph),
    rec g n pes = .ok (e, g') → ∀ env : List String, scoped_expr env e = true

theorem direct_child_pairs_source (g : QueryGraph) (node : NodeRef) :
    ∀ pr ∈ g.direct_child_pairs node, g.edge_source pr.1 = node := by
  intro pr hpr
  unfold QueryGraph.direct_child_pairs at hpr
  rw [List.mem_filterMap] at hpr
  obtain ⟨j, hj, hif⟩ := hpr
  by_cases hsrc : (g.edge_source j == node) = true
  · rw [if_pos hsrc] at hif
    cases hif
    exact eq_of_beq hsrc
  · rw [if_neg hsrc] at hif
    cases hif

theorem scoped_process_child_with_dependency {rec : Rec} (hsc : RecScoped rec)
    {g : QueryGraph} {edge : EdgeRef} {child : NodeRef} {e : Expression} {g' : QueryGraph}
    (h : NodeTranslator.process_child_with_dependency rec g edge child = .ok (e, g')) :
    ∀ env : List String, env.contains (g.edge_source edge) = true →
      scoped_expr env e = true := by
  intro env henv
  obtain ⟨expr, hcall, hshape⟩ := process_child_with_dependency_inversion rec g edge child e g' h
  have hexpr : ∀ env2 : List String, scoped_expr env2 expr = true :=
    hsc g child (g.incoming_edges child) expr g' hcall
  rcases hshape with rfl | ⟨fld, rfl⟩
  · exact hexpr env
  · simp at henv
    simp [scoped_expr, scoped_bindings, scoped_exprs, Binding.new, henv, hexpr]

theorem scoped_process_child_list {rec : Rec} (hsc : RecScoped rec) (hev : RecEvolves rec)
    {node : NodeRef} :
    ∀ (pairs : List (EdgeRef × NodeRef)) (g : QueryGraph) (es : List Expression) (g' : QueryGraph),
      (∀ pr ∈ pairs, g.edge_source pr.1 = node) →
      NodeTranslator.process_child_list rec g pairs = .ok (es, g') →
      ∀ e ∈ es, ∀ env : List String, env.contains node = true → scoped_expr env e = true := by
  intro pairs
  induction pairs with
  | nil =>
    intro g es g' hpre h
    unfold NodeTranslator.process_child_list at h
    cases h
    intro e he
    cases he
  | cons p rest ih =>
    intro g es g' hpre h
    obtain ⟨edge, child⟩ := p
    unfold NodeTranslator.process_child_list at h
    cases h1 : NodeTranslator.process_child_with_dependency rec g edge child with
    | error err => rw [h1] at h; cases h
    | ok q =>
      obtain ⟨e1, g1⟩ := q
      rw [h1] at h
      have h' : (match NodeTranslator.process_child_list rec g1 rest with
        | .error e => (Except.error e : TranslateResult (List Expression × QueryGraph))
        | .ok (exprs, graph) => .ok (e1 :: exprs, graph)) = .ok (es, g') := h
      cases h2 : NodeTranslator.process_child_list rec g1 rest with
      | error err => rw [h2] at h'; cases h'
      | ok q2 =>
        obtain ⟨es2, g2⟩ := q2
        rw [h2] at h'
        cases h'
        intro e he env henv
        rcases List.mem_cons.mp he with rfl | hmem
        · have hsrc : g.edge_source edge = node := hpre (edge, child) (by simp)
          exact scoped_process_child_with_dependency hsc h1 env (by rw [hsrc]; exact henv)
        · have hevo := evolvesT_process_child_with_dependency hev h1
          have hpre1 : ∀ pr ∈ rest, g1.edge_source pr.1 = node := by
            intro pr hpr
            rw [hevo.1.source_eq]
            exact hpre pr (by simp [hpr])
          exact ih g1 es2 g' hpre1 h2 e hmem env henv

theorem scoped_collect_result_bindings {rec : Rec} (hsc : RecScoped rec) (hev : RecEvolves rec)
    {node : NodeRef} :
    ∀ (pairs : List (EdgeRef × NodeRef)) (g : QueryGraph) (bs : List Binding) (g' : QueryGraph),
      (∀ pr ∈ pairs, g.edge_source pr.1 = node) →
      NodeTranslator.collect_result_bindings rec g pairs = .ok (bs, g') →
      ∀ env : List String, env.contains node = true → scoped_bindings env bs = true := by
  intro pairs
  induction pairs with
  | nil =>
    intro g bs g' hpre h
    unfold NodeTranslator.collect_result_bindings at h
    cases h
    intro env henv
    simp [scoped_bindings]
  | cons p rest ih =>
    intro g bs g' hpre h
    obtain ⟨edge, child⟩ := p
    unfold NodeTranslator.collect_result_bindings at h
    cases h1 : NodeTranslator.process_child_with_dependency rec g edge child with
    | error err => rw [h1] at h; cases h
    | ok q =>
      obtain ⟨e1, g1⟩ := q
      rw [h1] at h
      have h' : (match NodeTranslator.collect_result_bindings rec g1 rest with
        | .error e => (Except.error e : TranslateResult (List Binding × QueryGraph))
        | .ok (bs2, graph) => .ok (Binding.new child e1 :: bs2, graph)) = .ok (bs, g') := h
      cases h2 : NodeTranslator.collect_result_bindings rec g1 rest with
      | error err => rw [h2] at h'; cases h'
      | ok q2 =>
        obtain ⟨bs2, g2⟩ := q2
        rw [h2] at h'
        cases h'
        intro env henv
        have hsrc : g.edge_source edge = node := hpre (edge, child) (by simp)
        have he1 : scoped_expr env e1 = true :=
          scoped_process_child_with_dependency hsc h1 env (by rw [hsrc]; exact henv)
        have hevo := evolvesT_process_child_with_dependency hev h1
        have hpre1 : ∀ pr ∈ rest, g1.edge_source pr.1 = node := by
          intro pr hpr
          rw [hevo.1.source_eq]
          exact hpre pr (by simp [hpr])
        have henv2 : (env ++ [child]).contains node = true := by
          simp at henv ⊢
          exact Or.inl henv
        have htail := ih g1 bs2 g' hpre1 h2 (env ++ [child]) henv2
        simp [scoped_bindings, Binding.new, he1, htail]

theorem scoped_fold_result_scopes {rec : Rec} (hsc : RecScoped rec) (hev : RecEvolves rec)
    {node : NodeRef} {g : QueryGraph} {pairs : List (EdgeRef × NodeRef)} {e : Expression}
    {g' : QueryGraph}
    (hpre : ∀ pr ∈ pairs, g.edge_source pr.1 = node)
    (h : NodeTranslator.fold_result_scopes rec g pairs = .ok (e, g')) :
    ∀ env : List String, env.contains node = true → scoped_expr env e = true := by
  unfold NodeTranslator.fold_result_scopes at h
  cases hc : NodeTranslator.collect_result_bindings rec g pairs with
  | error err => rw [hc] at h; cases h
  | ok q =>
    obtain ⟨bindings, g1⟩ := q
    rw [hc] at h
    have hbind := scoped_collect_result_bindings hsc hev pairs g bindings g1 hpre hc
    have hnames : bindings.map Binding.name = bindings.map Prod.fst := rfl
    have h' : (if g1.result_nodes.length == 1 then
        match (bindings.map Binding.name).getLast? with
        | some last => Except.ok ((.Let bindings (.Get last) : Expression), g1)
        | none => (Except.error (.Panic "no binding for result node") :
            TranslateResult (Expression × QueryGraph))
      else Except.ok (.Let bindings (.GetFirstNonEmpty (bindings.map Binding.name)), g1)) =
        Except.ok (e, g') := h
    by_cases hone : (g1.result_nodes.length == 1) = true
    · rw [if_pos hone] at h'
      cases hlast : (bindings.map Binding.name).getLast? with
      | none => rw [hlast] at h'; cases h'
      | some last =>
        rw [hlast] at h'
        cases h'
        intro env henv
        have hmem : last ∈ bindings.map Prod.fst := by
          rw [← hnames]
          exact List.mem_of_mem_getLast? hlast
        simp [scoped_expr, hbind env henv]
        obtain ⟨bb, hbb, hbb1⟩ := List.mem_map.mp hmem
        refine Or.inr ⟨bb.2, ?_⟩
        rw [← hbb1]
        simpa using hbb
    · rw [if_neg hone] at h'
      cases h'
      intro env henv
      simp [scoped_expr, hbind env henv]
      intro n hn x hx hname
      have hn2 : hn = n := hname
      subst hn2
      exact Or.inr ⟨x, hx⟩

theorem scoped_exprs_forall (env : List String) :
    ∀ l : List Expression, scoped_exprs env l = true ↔ ∀ e ∈ l, scoped_expr env e = true := by
  intro l
  induction l with
  | nil => simp [scoped_exprs]
  | cons e es ih =>
    simp [scoped_exprs, ih]

theorem scoped_process_children {rec : Rec} (hsc : RecScoped rec) (hev : RecEvolves rec)
    {g : QueryGraph} {node : NodeRef} {es : List Expression} {g' : QueryGraph}
    (h : NodeTranslator.process_children rec g node = .ok (es, g')) :
    ∀ e ∈ es, ∀ env : List String, env.contains node = true → scoped_expr env e = true := by
  obtain ⟨exprs, g1, h1, hrest⟩ := process_children_inversion rec g node es g' h
  rw [partition_child_pairs_eq] at h1 hrest
  have hpre_eff : ∀ pr ∈ (g.direct_child_pairs node).filter
      (fun pr => !g.subgraph_contains_result pr.2), g.edge_source pr.1 = node := by
    intro pr hpr
    exact direct_child_pairs_source g node pr (List.mem_of_mem_filter hpr)
  have heff := scoped_process_child_list hsc hev _ g exprs g1 hpre_eff h1
  rcases hrest with ⟨hnil, he, hg⟩ | ⟨re, g2, h2, he, hg⟩
  · subst he
    exact heff
  · subst he
    intro e hmem env henv
    rcases List.mem_append.mp hmem with hm | hm
    · exact heff e hm env henv
    · have hm2 : e = re := by simpa using hm
      subst hm2
      have hevo1 := evolvesT_process_child_list hev _ g exprs g1 h1
      have hpre_res : ∀ pr ∈ ((g.direct_child_pairs node).filter
          (fun pr => g.subgraph_contains_result pr.2)).reverse,
          g1.edge_source pr.1 = node := by
        intro pr hpr
        rw [hevo1.1.source_eq]
        exact direct_child_pairs_source g node pr
          (List.mem_of_mem_filter (List.mem_reverse.mp hpr))
      exact scoped_fold_result_scopes hsc hev hpre_res h2 env henv

theorem scoped_translate_query {rec : Rec} (hsc : RecScoped rec) (hev : RecEvolves rec)
    {b : QueryBuilder} {g : QueryGraph} {node : NodeRef} {pes : List EdgeRef}
    {e : Expression} {g' : QueryGraph}
    (h : NodeTranslator.translate_query rec b g node pes = .ok (e, g')) :
    ∀ env : List String, scoped_expr env e = true := by
  obtain ⟨children, gc, op, g2, op2, g3, q, db, hstep, hpl, happ, hq, hlow, hg, hshape⟩ :=
    translate_query_inversion rec b g node pes e g' h
  intro env
  rcases hshape with ⟨hnil, rfl⟩ | ⟨hne, rfl⟩
  · simp [scoped_expr]
  · have hch : ∀ e2 ∈ children, ∀ env2 : List String,
        env2.contains node = true → scoped_expr env2 e2 = true := by
      rcases hstep with ⟨hres, hc0, hgc⟩ | ⟨hres, hpc⟩
      · subst hc0
        intro e2 he2
        cases he2
      · exact scoped_process_children hsc hev hpc
    have hchildren : scoped_exprs (env ++ [node]) children = true := by
      rw [scoped_exprs_forall]
      intro e2 he2
      refine hch e2 he2 (env ++ [node]) ?_
      simp
    simp [scoped_expr, scoped_bindings, scoped_exprs, Binding.new, hchildren]

theorem recScoped_translate (b : QueryBuilder) :
    ∀ fuel, RecScoped (NodeTranslator.translate b fuel) := by
  intro fuel
  induction fuel with
  | zero =>
    intro g n pes e g' h env
    unfold NodeTranslator.translate at h
    cases h
  | succ fuel ih =>
    intro g n pes e g' h env
    unfold NodeTranslator.translate at h
    cases hnc : g.node_content n with
    | none => rw [hnc] at h; cases h
    | some nd =>
      rw [hnc] at h
      cases nd with
      | Query q => exact scoped_translate_query ih (recEvolves_translate b fuel) h env
      | Empty =>
        have h' : Except.ok ((Expression.Seq [] : Expression), g) = .ok (e, g') := h
        cases h'
        simp [scoped_expr, scoped_exprs]
      | Flow => cases h

theorem scoped_translate_roots (b : QueryBuilder) (fuel : Nat) :
    ∀ (roots : List NodeRef) (g : QueryGraph) (es : List Expression) (g' : QueryGraph),
      Translate.translate_roots b fuel g roots = .ok (es, g') →
      ∀ e ∈ es, ∀ env : List String, scoped_expr env e = true := by
  intro roots
  induction roots with
  | nil =>
    intro g es g' h
    unfold Translate.translate_roots at h
    cases h
    intro e he
    cases he
  | cons r rest ih =>
    intro g es g' h
    unfold Translate.translate_roots at h
    cases h1 : NodeTranslator.translate b fuel g r [] with
    | error err => rw [h1] at h; cases h
    | ok q =>
      obtain ⟨e1, g1⟩ := q
      rw [h1] at h
      have h' : (match Translate.translate_roots b fuel g1 rest with
        | .error e => (Except.error e : TranslateResult (List Expression × QueryGraph))
        | .ok (exprs, graph) => .ok (e1 :: exprs, graph)) = .ok (es, g') := h
      cases h2 : Translate.translate_roots b fuel g1 rest with
      | error err => rw [h2] at h'; cases h'
      | ok q2 =>
        obtain ⟨es2, g2⟩ := q2
        rw [h2] at h'
        cases h'
        intro e he env
        rcases List.mem_cons.mp he with rfl | hmem
        · exact recScoped_translate b fuel g r [] e g1 h1 env
        · exact ih g1 es2 g' h2 e hmem env


/-- C8: in every expression tree produced by a successful top-level
translation, every `Get` (and every name of a `GetFirstNonEmpty`) refers to
a name introduced by a `Let` binding of an enclosing scope that is evaluated
strictly before it: the whole output passes the scoping check under the
empty environment, in which `Let` bindings are checked in evaluation order
(each seeing only the earlier ones) and bodies see exactly the enclosing
bindings. -/
theorem scoping_correctness (b : QueryBuilder) (fuel : Nat) (g : QueryGraph) (e : Expression)
    (h : Translate.translate b fuel g = .ok e) : scoped_expr [] e = true := by
  unfold Translate.translate at h
  cases hg : Translate.translate_graph b fuel g with
  | error err => rw [hg] at h; cases h
  | ok p =>
    obtain ⟨e1, g1⟩ := p
    rw [hg] at h
    have he : e1 = e := by
      have h' : (Except.ok (e1, g1)).map Prod.fst = Except.ok e := h
      cases h'
      rfl
    subst he
    unfold Translate.translate_graph at hg
    cases h1 : Translate.translate_roots b fuel g g.root_nodes with
    | error err => rw [h1] at hg; cases hg
    | ok q =>
      obtain ⟨es, g2⟩ := q
      rw [h1] at hg
      cases hg
      have hall := scoped_translate_roots b fuel g.root_nodes g es g1 h1
      simp [scoped_expr]
      rw [scoped_exprs_forall]
      intro e2 he2
      exact hall e2 he2 []

/-- Witness for C8: the translation of the two-result-children graph passes
the scoping check under the empty environment. -/
theorem scoping_correctness_witness :
    Translate.translate builder0 10 gTwoResults =
      .ok (.Seq [.Let [Binding.new "root" (.Query ⟨0⟩)]
        (.Seq [.Let [Binding.new "B" (.Query ⟨2⟩), Binding.new "A" (.Query ⟨1⟩)]
          (.GetFirstNonEmpty ["B", "A"])])]) ∧
    scoped_expr [] (.Seq [.Let [Binding.new "root" (.Query ⟨0⟩)]
      (.Seq [.Let [Binding.new "B" (.Query ⟨2⟩), Binding.new "A" (.Query ⟨1⟩)]
        (.GetFirstNonEmpty ["B", "A"])])]) = true :=
  ⟨rfl, scoping_correctness builder0 10 gTwoResults _ rfl⟩
